import Mathlib

/-!
Verification of the snailfish-number program (Advent of Code 2021, day 18
solution, `solution18.rs`).

The Rust source is shallowly embedded: trees become an inductive type,
`u32` values become `Nat`, in-place mutation becomes pure functions that
return the updated tree, and every Rust `panic!`/`unreachable!` site
becomes `Option.none` (or a dedicated result constructor).  The
unbounded `while` reduction loop is embedded with explicit fuel, and the
termination claim is settled by proving the fuel needed always exists.
-/

namespace Snailfish

/-- Embeds the mutually recursive Rust types
`enum Node { Pair(Box<Pair>), Value(u32) }` and
`struct Pair { left: Node, right: Node }`: a `Pair` node directly holds
its two children. -/
inductive Node where
  | Pair (left : Node) (right : Node)
  | Value (value : Nat)
deriving DecidableEq, Repr

/-- Embeds `struct SnailfishNumber(Box<Pair>)`: the two fields of the
root `Pair` are stored directly. -/
structure SnailfishNumber where
  left : Node
  right : Node
deriving DecidableEq, Repr

/-- The root pair of a `SnailfishNumber`, viewed as a `Node`. -/
def SnailfishNumber.toNode (s : SnailfishNumber) : Node :=
  .Pair s.left s.right

/-- `const SPLIT_LIMIT: u32 = 10`. -/
def SPLIT_LIMIT : Nat := 10

/-- `const OUTER_PAIR_LIMIT: u32 = 4`. -/
def OUTER_PAIR_LIMIT : Nat := 4

theorem SL_eq : SPLIT_LIMIT = 10 := rfl

theorem OPL_eq : OUTER_PAIR_LIMIT = 4 := rfl

/-- `impl Magnitude for Node` together with `impl Magnitude for Pair`:
`left.magnitude() * 3 + right.magnitude() * 2` on pairs, the value on
leaves. -/
def Node.magnitude : Node → Nat
  | .Pair l r => l.magnitude * 3 + r.magnitude * 2
  | .Value v => v

/-- `impl Magnitude for SnailfishNumber`. -/
def SnailfishNumber.magnitude (s : SnailfishNumber) : Nat :=
  s.toNode.magnitude

/-- `enum Direction {Left, Right}`. -/
inductive Direction where
  | Left
  | Right
deriving DecidableEq, Repr

/-- `struct ExplodeCarryValue { direction: Direction, value: u32 }`. -/
structure ExplodeCarryValue where
  direction : Direction
  value : Nat
deriving DecidableEq, Repr

/-- `struct ExplodeResult { exploded: bool, carry_value: Option<ExplodeCarryValue> }`. -/
structure ExplodeResult where
  exploded : Bool
  carry_value : Option ExplodeCarryValue
deriving DecidableEq, Repr

/-- `Node::force_as_value`; the `unreachable!` panic on a `Pair` becomes
`none`. -/
def Node.force_as_value : Node → Option Nat
  | .Value v => some v
  | .Pair _ _ => none

/-- `Node::accept_carry_value`: a `Value` absorbs the carry, a `Pair`
routes a right-bound carry into its left child and a left-bound carry
into its right child. -/
def Node.accept_carry_value : Node → ExplodeCarryValue → Node
  | .Value v, c => .Value (v + c.value)
  | .Pair l r, c =>
    match c.direction with
    | .Right => .Pair (l.accept_carry_value c) r
    | .Left => .Pair l (r.accept_carry_value c)

/-- `Pair::try_explode_children`, embedded on `Node` (a `Value` child is
never recursed into by the Rust code, which is mirrored here by the
`Value` case reporting "no explosion, unchanged").  In-place mutation
becomes returning the new node next to the `ExplodeResult`; the
`force_as_value` panic becomes `none`. -/
def Node.try_explode_children : Node → Nat → Option (Node × ExplodeResult)
  | .Value v, _ => some (.Value v, ⟨false, none⟩)
  | .Pair l r, outer_pairs =>
    if OUTER_PAIR_LIMIT ≤ outer_pairs then
      match l, r with
      | .Pair ll lr, r =>
        match lr.force_as_value, ll.force_as_value with
        | some rv, some lv =>
          some (.Pair (.Value 0) (r.accept_carry_value ⟨.Right, rv⟩),
                ⟨true, some ⟨.Left, lv⟩⟩)
        | _, _ => none
      | .Value lv, .Pair rl rr =>
        match rl.force_as_value, rr.force_as_value with
        | some lv2, some rv2 =>
          some (.Pair ((Node.Value lv).accept_carry_value ⟨.Left, lv2⟩) (.Value 0),
                ⟨true, some ⟨.Right, rv2⟩⟩)
        | _, _ => none
      | .Value lv, .Value rv =>
        some (.Pair (.Value lv) (.Value rv), ⟨false, none⟩)
    else
      match l.try_explode_children (outer_pairs + 1) with
      | none => none
      | some (l2, res1) =>
        if res1.exploded then
          match res1.carry_value with
          | some c =>
            match c.direction with
            | .Right => some (.Pair l2 (r.accept_carry_value c), ⟨true, none⟩)
            | .Left => some (.Pair l2 r, ⟨true, some c⟩)
          | none => some (.Pair l2 r, ⟨true, none⟩)
        else
          match r.try_explode_children (outer_pairs + 1) with
          | none => none
          | some (r2, res2) =>
            if res2.exploded then
              match res2.carry_value with
              | some c =>
                match c.direction with
                | .Left => some (.Pair (l2.accept_carry_value c) r2, ⟨true, none⟩)
                | .Right => some (.Pair l2 r2, ⟨true, some c⟩)
              | none => some (.Pair l2 r2, ⟨true, none⟩)
            else
              some (.Pair l2 r2, ⟨false, none⟩)

/-- `Pair::try_split_children` embedded on `Node`.  The Rust loop over
`[left, right]` treats a child that is a `Pair` by recursion and a child
that is a `Value >= SPLIT_LIMIT` by `Node::split` (which replaces
`Value v` with `Pair(Value(v / 2), Value(v - v / 2))`); a small value
reports `false`.  Those three child cases are exactly the cases of this
function, so the pair case simply consults both children in order. -/
def Node.try_split_children : Node → Node × Bool
  | .Value v =>
    if SPLIT_LIMIT ≤ v then
      (.Pair (.Value (v / 2)) (.Value (v - v / 2)), true)
    else
      (.Value v, false)
  | .Pair l r =>
    match l.try_split_children with
    | (l2, true) => (.Pair l2 r, true)
    | (l2, false) =>
      match r.try_split_children with
      | (r2, b) => (.Pair l2 r2, b)

/-- Outcome of running the reduction loop of `add_numbers` with a given
amount of fuel. -/
inductive ReduceResult where
  | done (n : Node)
  | panicked
  | fuel_out
deriving DecidableEq, Repr

/-- The reduction loop
`while combined.0.try_explode_children(1).exploded || combined.0.try_split_children() { }`
with explicit fuel (one unit per loop-condition evaluation).
`panicked` is the propagated `force_as_value` panic. -/
def Node.reduce_fuel : Nat → Node → ReduceResult
  | 0, _ => .fuel_out
  | fuel + 1, n =>
    match n.try_explode_children 1 with
    | none => .panicked
    | some (n1, res) =>
      if res.exploded then
        Node.reduce_fuel fuel n1
      else
        match n1.try_split_children with
        | (n2, true) => Node.reduce_fuel fuel n2
        | (n2, false) => .done n2

/-- `fn add_numbers`: build the combined root pair from the two numbers,
then reduce to a fixed point.  The root of the combined tree is a pair
and every rewrite keeps it a pair, so the `.done (.Value _)` branch is
dead code; it is mapped to `none`. -/
def add_numbers (fuel : Nat) (left right : SnailfishNumber) : Option SnailfishNumber :=
  match Node.reduce_fuel fuel (.Pair left.toNode right.toNode) with
  | .done (.Pair l r) => some ⟨l, r⟩
  | .done (.Value _) => none
  | .panicked => none
  | .fuel_out => none

/-- All ordered pairs of elements of `input` sitting at distinct
positions: `iproduct!(input, input).filter(|(l, r)| !eq(*l, *r))` where
`eq` is pointer equality of slice elements, i.e. index inequality. -/
def allPairs (input : List SnailfishNumber) : List (SnailfishNumber × SnailfishNumber) :=
  input.enum.flatMap fun p =>
    (input.enum.filter fun q => q.1 ≠ p.1).map fun q => (p.2, q.2)

/-- Evaluate `f` on every element in order, failing as soon as one
evaluation fails — the effect of a Rust iterator whose body can panic. -/
def mapOption (f : α → Option β) : List α → Option (List β)
  | [] => some []
  | a :: L =>
    match f a, mapOption f L with
    | some b, some out => some (b :: out)
    | _, _ => none

/-- `fn solution18b`: maximum magnitude of `add_numbers(a, b)` over all
ordered distinct-position pairs.  The `.expect` panic on an empty
iterator and a panic inside `add_numbers` both become `none`. -/
def solution18b (fuel : Nat) (input : List SnailfishNumber) : Option Nat :=
  match mapOption
      (fun p => (add_numbers fuel p.1 p.2).map SnailfishNumber.magnitude)
      (allPairs input) with
  | none => none
  | some mags => mags.max?

/-- `fn find_comma`, scanning for the comma at bracket-nesting zero.
Both panics (`Unexpected pair finish!` on a depth-zero `]` and the
fall-off-the-end `unreachable!`) become `none`. -/
def find_comma_from : List Char → Nat → Nat → Option Nat
  | [], _, _ => none
  | c :: rest, stack_count, idx =>
    if c = ',' ∧ stack_count = 0 then some idx
    else if c = '[' then find_comma_from rest (stack_count + 1) (idx + 1)
    else if c = ']' ∧ stack_count = 0 then none
    else if c = ']' then find_comma_from rest (stack_count - 1) (idx + 1)
    else find_comma_from rest stack_count (idx + 1)

/-- `find_comma(pair_ser)` starts the scan with `stack_count = 0`. -/
def find_comma (s : List Char) : Option Nat :=
  find_comma_from s 0 0

/-- Rust's `str::parse::<u32>()`: an optional leading `+`, then one or
more ASCII digits, value below `2^32`; anything else is `Err` (here
`none`). -/
def parse_u32 (s : List Char) : Option Nat :=
  let digits := if s.head? = some '+' then s.tail else s
  if digits = [] then none
  else if digits.all Char.isDigit then
    let v := digits.foldl (fun a c => a * 10 + (c.toNat - 48)) 0
    if v < 2 ^ 32 then some v else none
  else none

/-- `fn parse_node` (with `fn parse_pair` inlined at the recursive
call).  A string not starting with `[` is parsed as a `u32` leaf;
otherwise the first and last characters are stripped unconditionally
(`&node_ser[1..node_ser.len()-1]`, an out-of-bounds panic — `none` —
when fewer than two characters remain) and the comma at depth zero
splits the two children.  Fuel bounds the nesting depth; recursion is on
fuel. -/
def parse_node : Nat → List Char → Option Node
  | 0, _ => none
  | fuel + 1, s =>
    if s.head? ≠ some '[' then
      (parse_u32 s).map .Value
    else if s.length < 2 then none
    else
      let inner := (s.drop 1).dropLast
      match find_comma inner with
      | none => none
      | some comma_pos =>
        match parse_node fuel (inner.take comma_pos),
              parse_node fuel (inner.drop (comma_pos + 1)) with
        | some l, some r => some (.Pair l r)
        | _, _ => none

/-- `fn parse_pair`: find the separating comma and parse both sides. -/
def parse_pair (fuel : Nat) (s : List Char) : Option (Node × Node) :=
  match find_comma s with
  | none => none
  | some comma_pos =>
    match parse_node fuel (s.take comma_pos),
          parse_node fuel (s.drop (comma_pos + 1)) with
    | some l, some r => some (l, r)
    | _, _ => none

/-- `fn parse_snailfish_number`: strip the first and last characters
unconditionally (`&num_ser[1..num_ser.len()-1]`; a slice panic — `none`
— when the string has fewer than two characters) and parse a pair from
what remains.  No check that the stripped characters are brackets. -/
def parse_snailfish_number (fuel : Nat) (s : List Char) : Option SnailfishNumber :=
  if s.length < 2 then none
  else
    match parse_pair fuel ((s.drop 1).dropLast) with
    | some (l, r) => some ⟨l, r⟩
    | none => none

/-- Decimal digit to character, as Rust's `Display for u32` renders each
digit. -/
def digitChar (d : Nat) : Char :=
  match d with
  | 0 => '0' | 1 => '1' | 2 => '2' | 3 => '3' | 4 => '4'
  | 5 => '5' | 6 => '6' | 7 => '7' | 8 => '8' | 9 => '9'
  | _ => '*'

/-- Base-10 digits of `v`, least significant first, with fuel (any
`fuel ≥ v` is exact). -/
def natDigitsAux : Nat → Nat → List Nat
  | 0, _ => []
  | fuel + 1, v =>
    if v = 0 then [] else v % 10 :: natDigitsAux fuel (v / 10)

/-- Decimal rendering of a `Nat`, most significant digit first — Rust's
`Display for u32` (used by `write!(f, "{}", value)`). -/
def natChars (v : Nat) : List Char :=
  if v = 0 then ['0'] else (natDigitsAux v v).reverse.map digitChar

/-- `impl fmt::Debug for Node` together with `impl fmt::Debug for Pair`:
a leaf prints its value, a pair prints `[{:?} , {:?}]` — note the
spaces around the comma. -/
def Node.debug_fmt : Node → List Char
  | .Value v => natChars v
  | .Pair l r => '[' :: (l.debug_fmt ++ ' ' :: ',' :: ' ' :: r.debug_fmt) ++ [']']

/-- `impl fmt::Debug for SnailfishNumber`: `Number {:?}` applied to the
root pair. -/
def SnailfishNumber.debug_fmt (s : SnailfishNumber) : List Char :=
  'N' :: 'u' :: 'm' :: 'b' :: 'e' :: 'r' :: ' ' :: s.toNode.debug_fmt

/-- Modelled from the spec: the canonical printer of the grammar in §6
(`pair ::= "[" element "," element "]"`), i.e. the bracket notation the
parser consumes, with no spaces.  The program's own Debug formatter
differs from it only by the spaces around each comma. -/
def Node.canonical_fmt : Node → List Char
  | .Value v => natChars v
  | .Pair l r => '[' :: (l.canonical_fmt ++ ',' :: r.canonical_fmt) ++ [']']

/-- The canonical printer on a whole number prints its root pair. -/
def SnailfishNumber.canonical_fmt (s : SnailfishNumber) : List Char :=
  s.toNode.canonical_fmt

/-! ## Leaf-sequence semantics

A full binary tree is described by its left-to-right sequence of leaves
together with each leaf's depth (the number of `Pair` nodes strictly
containing it).  The explode and split rewrites of the spec are stated
as operations on this sequence. -/

/-- The left-to-right leaf sequence of `n`, as `(value, depth)` pairs,
where `e` is the number of `Pair` nodes already strictly containing
`n`. -/
def Node.leavesD : Node → Nat → List (Nat × Nat)
  | .Value v, e => [(v, e)]
  | .Pair l r, e => l.leavesD (e + 1) ++ r.leavesD (e + 1)

/-- Add `b` to the value of the first leaf of the sequence (no leaf: the
carry is dropped). -/
def addToHead (b : Nat) : List (Nat × Nat) → List (Nat × Nat)
  | [] => []
  | (v, d) :: rest => (v + b, d) :: rest

/-- Add `a` to the value of the last leaf of the sequence (no leaf: the
carry is dropped). -/
def addToLast (a : Nat) : List (Nat × Nat) → List (Nat × Nat)
  | [] => []
  | [(v, d)] => [(v + a, d)]
  | p :: rest => p :: addToLast a rest

/-- Split the leaf sequence at its first leaf lying at or beyond the
maximum nesting depth (depth `≥ OUTER_PAIR_LIMIT + 1`): returns the
strictly-shallower prefix, that leaf's value and depth, and the
remaining suffix. -/
def splitFirstDeep : List (Nat × Nat) → Option (List (Nat × Nat) × Nat × Nat × List (Nat × Nat))
  | [] => none
  | (v, d) :: rest =>
    if OUTER_PAIR_LIMIT + 1 ≤ d then some ([], v, d, rest)
    else (splitFirstDeep rest).map fun q => ((v, d) :: q.1, q.2)

/-- Modelled from the spec (§4.2, Explode): the first pair at or beyond
the maximum nesting depth — in leaf order, the first leaf at depth
`≥ OUTER_PAIR_LIMIT + 1` together with its immediate successor — is
replaced by a single `0` one level up; its left value is added to the
nearest leaf strictly to its left (dropped when none exists) and its
right value to the nearest leaf strictly to its right (dropped when
none exists).  A sequence with no deep leaf is returned unchanged. -/
def specExplodeLeaves (L : List (Nat × Nat)) : List (Nat × Nat) :=
  match splitFirstDeep L with
  | none => L
  | some (P, a, d, rest) =>
    let b := (rest.head?.map Prod.fst).getD 0
    addToLast a P ++ (0, d - 1) :: addToHead b rest.tail

/-- Modelled from the spec (§4.2, Split): the first leaf whose value is
`≥ SPLIT_LIMIT` becomes a pair of its floor half and the remainder, one
level deeper; all other leaves are unchanged. -/
def specSplitLeaves : List (Nat × Nat) → List (Nat × Nat)
  | [] => []
  | (v, d) :: rest =>
    if SPLIT_LIMIT ≤ v then (v / 2, d + 1) :: (v - v / 2, d + 1) :: rest
    else (v, d) :: specSplitLeaves rest

/-- Is this node a `Value`? -/
def Node.isValue : Node → Bool
  | .Value _ => true
  | .Pair _ _ => false

/-- Every `Pair` nested inside at least `OUTER_PAIR_LIMIT` pairs
(counting the `e` pairs already above this node) has two `Value`
children — the assumption under which `try_explode_children` never
reaches its `force_as_value` panic. -/
def Node.explode_safe_at : Node → Nat → Bool
  | .Value _, _ => true
  | .Pair l r, e =>
    (decide (e < OUTER_PAIR_LIMIT) || (l.isValue && r.isValue))
      && l.explode_safe_at (e + 1) && r.explode_safe_at (e + 1)

/-- `explode_safe_at` for a whole tree (nothing above it). -/
def Node.explode_safe (n : Node) : Bool := n.explode_safe_at 0

/-- No `Pair` reachable at outer-pair-count `≥ OUTER_PAIR_LIMIT` has a
`Pair` child (the explode fixed point): this is `explode_safe_at` with
the count started at 1, since a pair's outer-pair-count is one more
than the number of pairs strictly containing it. -/
def Node.pair_free (n : Node) : Bool := n.explode_safe_at 1

/-- Every leaf value is strictly below `bound`. -/
def Node.values_lt : Node → Nat → Bool
  | .Value v, bound => decide (v < bound)
  | .Pair l r, bound => l.values_lt bound && r.values_lt bound

/-- A reduced tree: no explode applies (`pair_free`) and no split
applies (all values `< SPLIT_LIMIT`). -/
def Node.is_reduced (n : Node) : Bool :=
  n.pair_free && n.values_lt SPLIT_LIMIT

/-- Value of a least-significant-first digit list (the inverse of
`natDigitsAux`). -/
def valLSD : List Nat → Nat
  | [] => 0
  | d :: ds => d + 10 * valLSD ds

/-- Nesting depth of a tree: number of `Pair` levels. -/
def Node.pairDepth : Node → Nat
  | .Value _ => 0
  | .Pair l r => max l.pairDepth r.pairDepth + 1

/-! ## Termination measure for the reduction loop

The loop state is summarised by its leaf sequence.  Three quantities
drop lexicographically: the total of the leaf values (explodes at a
sequence boundary lose a carry), the number of leaves at depth 5 (an
interior explode removes two), and a position-weighted sum that grows
strictly at every split.  Each leaf at depth `d ≤ 5` is assigned a
dyadic slot of width `2 ^ (5 - d)` so that the slots of a tree tile an
interval of length 32, and the weighted sum counts each value with
weight `4 ^ s` at its slot's start `s`: a split moves half the value to
a strictly larger weight, while the surrounding slots do not move. -/

/-- Total of the leaf values of a leaf sequence. -/
def sumVals (L : List (Nat × Nat)) : Nat := (L.map Prod.fst).sum

/-- Number of leaves at or beyond depth 5 (the depth an explode
removes). -/
def countDeep (L : List (Nat × Nat)) : Nat :=
  (L.filter fun p => decide (5 ≤ p.2)).length

/-- Dyadic slot width of a leaf at depth `d`. -/
def slotW (d : Nat) : Nat := 2 ^ (5 - d)

/-- Total slot width of a leaf sequence (32 for the leaves of a tree
within the depth invariant). -/
def widthSum (L : List (Nat × Nat)) : Nat := (L.map fun p => slotW p.2).sum

/-- Position-weighted value sum: each leaf contributes its value times
`4 ^ s` where `s` is the running slot start and `s0` the start of the
first slot. -/
def Mslots : List (Nat × Nat) → Nat → Nat
  | [], _ => 0
  | (v, d) :: rest, s => v * 4 ^ s + Mslots rest (s + slotW d)

/-- The combined strictly-decreasing measure, relative to a bound `T`
strictly above the third component and with 33 dominating every
possible `countDeep`. -/
def measure3 (T : Nat) (L : List (Nat × Nat)) : Nat :=
  sumVals L * (33 * T) + countDeep L * T +
    ((sumVals L + 1) * 4 ^ 31 - Mslots L 0)

/-! ## Concrete trees used by the claims -/

/-- The snailfish number `[[[[4,3],4],4],[7,[[8,4],9]]]`. -/
def exC1_left : SnailfishNumber :=
  ⟨.Pair (.Pair (.Pair (.Value 4) (.Value 3)) (.Value 4)) (.Value 4),
   .Pair (.Value 7) (.Pair (.Pair (.Value 8) (.Value 4)) (.Value 9))⟩

/-- The snailfish number `[1,1]`. -/
def exC1_right : SnailfishNumber := ⟨.Value 1, .Value 1⟩

/-- The snailfish number `[[[[0,7],4],[[7,8],[6,0]]],[8,1]]`. -/
def exC1_sum : SnailfishNumber :=
  ⟨.Pair (.Pair (.Pair (.Value 0) (.Value 7)) (.Value 4))
     (.Pair (.Pair (.Value 7) (.Value 8)) (.Pair (.Value 6) (.Value 0))),
   .Pair (.Value 8) (.Value 1)⟩

/-- The tree `[[[[[9,8],1],2],3],4]`. -/
def exC2 : Node :=
  .Pair (.Pair (.Pair (.Pair (.Pair (.Value 9) (.Value 8)) (.Value 1))
    (.Value 2)) (.Value 3)) (.Value 4)

/-- The tree `[[[[0,9],2],3],4]`. -/
def exC2_result : Node :=
  .Pair (.Pair (.Pair (.Pair (.Value 0) (.Value 9)) (.Value 2)) (.Value 3))
    (.Value 4)

/-- The snailfish number `[[1,2],[[3,4],5]]`. -/
def exC6 : SnailfishNumber :=
  ⟨.Pair (.Value 1) (.Value 2),
   .Pair (.Pair (.Value 3) (.Value 4)) (.Value 5)⟩

/-! ## Basic lemmas about leaf sequences -/

theorem addToHead_append (b : Nat) (A B : List (Nat × Nat)) (h : A ≠ []) :
    addToHead b (A ++ B) = addToHead b A ++ B := by
  cases A with
  | nil => exact absurd rfl h
  | cons p A2 => cases p; simp [addToHead]

theorem addToLast_cons (a : Nat) (p : Nat × Nat) (rest : List (Nat × Nat))
    (h : rest ≠ []) : addToLast a (p :: rest) = p :: addToLast a rest := by
  cases rest with
  | nil => exact absurd rfl h
  | cons q t => cases p; cases q; simp [addToLast]

theorem addToLast_append (a : Nat) (A B : List (Nat × Nat)) (h : B ≠ []) :
    addToLast a (A ++ B) = A ++ addToLast a B := by
  induction A with
  | nil => simp
  | cons p A2 ih =>
    have hne : A2 ++ B ≠ [] := by
      intro hx
      exact h (List.append_eq_nil.1 hx).2
    rw [List.cons_append, addToLast_cons a p (A2 ++ B) hne, ih]
    rfl

theorem addToHead_length (b : Nat) (L : List (Nat × Nat)) :
    (addToHead b L).length = L.length := by
  cases L with
  | nil => rfl
  | cons p rest => cases p; simp [addToHead]

theorem addToLast_length (a : Nat) (L : List (Nat × Nat)) :
    (addToLast a L).length = L.length := by
  induction L with
  | nil => rfl
  | cons p rest ih =>
    cases rest with
    | nil => cases p; simp [addToLast]
    | cons q t =>
      rw [addToLast_cons a p _ (by simp)]
      simpa using ih

theorem leavesD_ne_nil (n : Node) (e : Nat) : n.leavesD e ≠ [] := by
  cases n with
  | Value v => simp [Node.leavesD]
  | Pair l r =>
    have h := leavesD_ne_nil l (e + 1)
    simp only [Node.leavesD]
    intro hx
    exact h (List.append_eq_nil.1 hx).1

theorem leavesD_depth_ge (n : Node) (e : Nat) :
    ∀ p ∈ n.leavesD e, e ≤ p.2 := by
  induction n generalizing e with
  | Value v => simp [Node.leavesD]
  | Pair l r ihl ihr =>
    intro p hp
    simp only [Node.leavesD, List.mem_append] at hp
    rcases hp with hp | hp
    · exact le_trans (Nat.le_succ e) (ihl (e + 1) p hp)
    · exact le_trans (Nat.le_succ e) (ihr (e + 1) p hp)

theorem leavesD_singleton {n : Node} {e v d : Nat}
    (h : n.leavesD e = [(v, d)]) : n = .Value v ∧ d = e := by
  cases n with
  | Value w =>
    simp only [Node.leavesD, List.cons.injEq, Prod.mk.injEq] at h
    exact ⟨by rw [h.1.1], h.1.2.symm⟩
  | Pair l r =>
    exfalso
    have h1 : (l.leavesD (e + 1)).length + (r.leavesD (e + 1)).length = 1 := by
      have := congrArg List.length h
      simpa [Node.leavesD] using this
    have h2 := List.length_pos.2 (leavesD_ne_nil l (e + 1))
    have h3 := List.length_pos.2 (leavesD_ne_nil r (e + 1))
    omega

theorem leavesD_two {n : Node} {e : Nat} {p1 p2 : Nat × Nat}
    (h : n.leavesD e = [p1, p2]) :
    n = .Pair (.Value p1.1) (.Value p2.1) ∧ p1.2 = e + 1 ∧ p2.2 = e + 1 := by
  cases n with
  | Value w => simp [Node.leavesD] at h
  | Pair l r =>
    simp only [Node.leavesD] at h
    have h1 : (l.leavesD (e + 1)).length + (r.leavesD (e + 1)).length = 2 := by
      have := congrArg List.length h
      simpa using this
    have h2 := List.length_pos.2 (leavesD_ne_nil l (e + 1))
    have h3 := List.length_pos.2 (leavesD_ne_nil r (e + 1))
    have hl1 : (l.leavesD (e + 1)).length = 1 := by omega
    rcases List.length_eq_one.1 hl1 with ⟨q, hq⟩
    rw [hq] at h
    simp only [List.cons_append, List.nil_append, List.cons.injEq] at h
    obtain ⟨hq1, hr⟩ := h
    have hrr : r.leavesD (e + 1) = [p2] := by
      cases hrl : r.leavesD (e + 1) with
      | nil => exact absurd hrl (leavesD_ne_nil r (e + 1))
      | cons z t =>
        rw [hrl] at hr
        simpa using hr
    obtain ⟨hl, hd1⟩ := leavesD_singleton (hq1 ▸ hq : l.leavesD (e + 1) = [p1])
    obtain ⟨hrv, hd2⟩ := leavesD_singleton hrr
    obtain ⟨v1, d1⟩ := p1
    obtain ⟨v2, d2⟩ := p2
    exact ⟨by rw [hl, hrv], by simpa using hd1, by simpa using hd2⟩

theorem accept_Right (n : Node) (x : Nat) (e : Nat) :
    (n.accept_carry_value ⟨.Right, x⟩).leavesD e = addToHead x (n.leavesD e) := by
  induction n generalizing e with
  | Value v => simp [Node.accept_carry_value, Node.leavesD, addToHead]
  | Pair l r ihl ihr =>
    simp only [Node.accept_carry_value, Node.leavesD]
    rw [ihl, addToHead_append x _ _ (leavesD_ne_nil l (e + 1))]

theorem accept_Left (n : Node) (x : Nat) (e : Nat) :
    (n.accept_carry_value ⟨.Left, x⟩).leavesD e = addToLast x (n.leavesD e) := by
  induction n generalizing e with
  | Value v => simp [Node.accept_carry_value, Node.leavesD, addToLast]
  | Pair l r ihl ihr =>
    simp only [Node.accept_carry_value, Node.leavesD]
    rw [ihr, addToLast_append x _ _ (leavesD_ne_nil r (e + 1))]

/-! ## Lemmas about `splitFirstDeep` -/

theorem splitFirstDeep_eq_none_iff (L : List (Nat × Nat)) :
    splitFirstDeep L = none ↔ ∀ p ∈ L, p.2 ≤ OUTER_PAIR_LIMIT := by
  induction L with
  | nil => simp [splitFirstDeep]
  | cons p rest ih =>
    obtain ⟨v, d⟩ := p
    by_cases hd : OUTER_PAIR_LIMIT + 1 ≤ d
    · simp [splitFirstDeep, hd]
      omega
    · simp [splitFirstDeep, hd, ih]
      intro _
      omega

theorem splitFirstDeep_cons_deep {v d : Nat} (rest : List (Nat × Nat))
    (hd : OUTER_PAIR_LIMIT + 1 ≤ d) :
    splitFirstDeep ((v, d) :: rest) = some ([], v, d, rest) := by
  simp [splitFirstDeep, hd]

theorem splitFirstDeep_cons_shallow {v d : Nat} (rest : List (Nat × Nat))
    (hd : ¬ OUTER_PAIR_LIMIT + 1 ≤ d) :
    splitFirstDeep ((v, d) :: rest) =
      (splitFirstDeep rest).map fun q => ((v, d) :: q.1, q.2) := by
  simp [splitFirstDeep, hd]

theorem splitFirstDeep_some_facts {L P : List (Nat × Nat)} {a d : Nat}
    {rest : List (Nat × Nat)} (h : splitFirstDeep L = some (P, a, d, rest)) :
    L = P ++ (a, d) :: rest ∧ OUTER_PAIR_LIMIT + 1 ≤ d ∧
      ∀ p ∈ P, p.2 ≤ OUTER_PAIR_LIMIT := by
  induction L generalizing P with
  | nil => simp [splitFirstDeep] at h
  | cons q t ih =>
    obtain ⟨v, dq⟩ := q
    by_cases hd : OUTER_PAIR_LIMIT + 1 ≤ dq
    · rw [splitFirstDeep_cons_deep t hd] at h
      simp only [Option.some.injEq, Prod.mk.injEq] at h
      obtain ⟨h1, h2, h3, h4⟩ := h
      subst h1 h2 h3 h4
      simp [hd]
    · rw [splitFirstDeep_cons_shallow t hd] at h
      cases hsp : splitFirstDeep t with
      | none => rw [hsp] at h; simp at h
      | some q2 =>
        rw [hsp] at h
        obtain ⟨P2, a2, d2, rest2⟩ := q2
        simp only [Option.map_some', Option.some.injEq, Prod.mk.injEq] at h
        obtain ⟨h1, h2, h3, h4⟩ := h
        subst h2 h3 h4
        obtain ⟨g1, g2, g3⟩ := ih hsp
        subst h1
        refine ⟨by rw [g1]; rfl, g2, ?_⟩
        intro p hp
        rcases List.mem_cons.1 hp with hp | hp
        · subst hp; omega
        · exact g3 p hp

theorem splitFirstDeep_append_some {A : List (Nat × Nat)} {P : List (Nat × Nat)}
    {a d : Nat} {rest : List (Nat × Nat)}
    (h : splitFirstDeep A = some (P, a, d, rest)) (B : List (Nat × Nat)) :
    splitFirstDeep (A ++ B) = some (P, a, d, rest ++ B) := by
  induction A generalizing P with
  | nil => simp [splitFirstDeep] at h
  | cons q t ih =>
    obtain ⟨v, dq⟩ := q
    by_cases hd : OUTER_PAIR_LIMIT + 1 ≤ dq
    · rw [splitFirstDeep_cons_deep t hd] at h
      simp only [Option.some.injEq, Prod.mk.injEq] at h
      obtain ⟨h1, h2, h3, h4⟩ := h
      subst h1 h2 h3 h4
      rw [List.cons_append, splitFirstDeep_cons_deep _ hd]
    · rw [splitFirstDeep_cons_shallow t hd] at h
      cases hsp : splitFirstDeep t with
      | none => rw [hsp] at h; simp at h
      | some q2 =>
        rw [hsp] at h
        obtain ⟨P2, a2, d2, rest2⟩ := q2
        simp only [Option.map_some', Option.some.injEq, Prod.mk.injEq] at h
        obtain ⟨h1, h2, h3, h4⟩ := h
        subst h2 h3 h4
        subst h1
        rw [List.cons_append, splitFirstDeep_cons_shallow _ hd, ih hsp]
        rfl

theorem splitFirstDeep_append_none {A : List (Nat × Nat)}
    (h : splitFirstDeep A = none) (B : List (Nat × Nat)) :
    splitFirstDeep (A ++ B) =
      (splitFirstDeep B).map fun q => (A ++ q.1, q.2) := by
  induction A with
  | nil =>
    simp only [List.nil_append]
    cases hb : splitFirstDeep B with
    | none => simp
    | some q => simp
  | cons q t ih =>
    obtain ⟨v, dq⟩ := q
    by_cases hd : OUTER_PAIR_LIMIT + 1 ≤ dq
    · rw [splitFirstDeep_cons_deep t hd] at h; simp at h
    · rw [splitFirstDeep_cons_shallow t hd] at h
      have ht : splitFirstDeep t = none := by
        cases hsp : splitFirstDeep t with
        | none => rfl
        | some q2 => rw [hsp] at h; simp at h
      rw [List.cons_append, splitFirstDeep_cons_shallow _ hd, ih ht]
      cases hb : splitFirstDeep B with
      | none => simp
      | some q2 => simp

/-! ## Unfold lemmas for `try_explode_children` -/

theorem te_value (v : Nat) (o : Nat) :
    (Node.Value v).try_explode_children o = some (.Value v, ⟨false, none⟩) := rfl

theorem te_limit_pair_left (ll lr : Nat) (r : Node) (o : Nat)
    (h : OUTER_PAIR_LIMIT ≤ o) :
    (Node.Pair (.Pair (.Value ll) (.Value lr)) r).try_explode_children o =
      some (.Pair (.Value 0) (r.accept_carry_value ⟨.Right, lr⟩),
            ⟨true, some ⟨.Left, ll⟩⟩) := by
  simp [Node.try_explode_children, h, Node.force_as_value]

theorem te_limit_val_pair (x ra rb : Nat) (o : Nat) (h : OUTER_PAIR_LIMIT ≤ o) :
    (Node.Pair (.Value x) (.Pair (.Value ra) (.Value rb))).try_explode_children o =
      some (.Pair (.Value (x + ra)) (.Value 0), ⟨true, some ⟨.Right, rb⟩⟩) := by
  simp [Node.try_explode_children, h, Node.force_as_value, Node.accept_carry_value]

theorem te_limit_val_val (x y : Nat) (o : Nat) (h : OUTER_PAIR_LIMIT ≤ o) :
    (Node.Pair (.Value x) (.Value y)).try_explode_children o =
      some (.Pair (.Value x) (.Value y), ⟨false, none⟩) := by
  simp [Node.try_explode_children, h]

theorem te_rec_lr (l r l2 : Node) (cv o : Nat) (h : o < OUTER_PAIR_LIMIT)
    (hl : l.try_explode_children (o + 1) = some (l2, ⟨true, some ⟨.Right, cv⟩⟩)) :
    (Node.Pair l r).try_explode_children o =
      some (.Pair l2 (r.accept_carry_value ⟨.Right, cv⟩), ⟨true, none⟩) := by
  simp [Node.try_explode_children, Nat.not_le.2 h, hl]

theorem te_rec_ll (l r l2 : Node) (cv o : Nat) (h : o < OUTER_PAIR_LIMIT)
    (hl : l.try_explode_children (o + 1) = some (l2, ⟨true, some ⟨.Left, cv⟩⟩)) :
    (Node.Pair l r).try_explode_children o =
      some (.Pair l2 r, ⟨true, some ⟨.Left, cv⟩⟩) := by
  simp [Node.try_explode_children, Nat.not_le.2 h, hl]

theorem te_rec_ln (l r l2 : Node) (o : Nat) (h : o < OUTER_PAIR_LIMIT)
    (hl : l.try_explode_children (o + 1) = some (l2, ⟨true, none⟩)) :
    (Node.Pair l r).try_explode_children o =
      some (.Pair l2 r, ⟨true, none⟩) := by
  simp [Node.try_explode_children, Nat.not_le.2 h, hl]

theorem te_rec_rl (l r l2 r2 : Node) (c : Option ExplodeCarryValue) (cv o : Nat)
    (h : o < OUTER_PAIR_LIMIT)
    (hl : l.try_explode_children (o + 1) = some (l2, ⟨false, c⟩))
    (hr : r.try_explode_children (o + 1) = some (r2, ⟨true, some ⟨.Left, cv⟩⟩)) :
    (Node.Pair l r).try_explode_children o =
      some (.Pair (l2.accept_carry_value ⟨.Left, cv⟩) r2, ⟨true, none⟩) := by
  simp [Node.try_explode_children, Nat.not_le.2 h, hl, hr]

theorem te_rec_rr (l r l2 r2 : Node) (c : Option ExplodeCarryValue) (cv o : Nat)
    (h : o < OUTER_PAIR_LIMIT)
    (hl : l.try_explode_children (o + 1) = some (l2, ⟨false, c⟩))
    (hr : r.try_explode_children (o + 1) = some (r2, ⟨true, some ⟨.Right, cv⟩⟩)) :
    (Node.Pair l r).try_explode_children o =
      some (.Pair l2 r2, ⟨true, some ⟨.Right, cv⟩⟩) := by
  simp [Node.try_explode_children, Nat.not_le.2 h, hl, hr]

theorem te_rec_rn (l r l2 r2 : Node) (c : Option ExplodeCarryValue) (o : Nat)
    (h : o < OUTER_PAIR_LIMIT)
    (hl : l.try_explode_children (o + 1) = some (l2, ⟨false, c⟩))
    (hr : r.try_explode_children (o + 1) = some (r2, ⟨true, none⟩)) :
    (Node.Pair l r).try_explode_children o =
      some (.Pair l2 r2, ⟨true, none⟩) := by
  simp [Node.try_explode_children, Nat.not_le.2 h, hl, hr]

theorem te_rec_ff (l r l2 r2 : Node) (c c2 : Option ExplodeCarryValue) (o : Nat)
    (h : o < OUTER_PAIR_LIMIT)
    (hl : l.try_explode_children (o + 1) = some (l2, ⟨false, c⟩))
    (hr : r.try_explode_children (o + 1) = some (r2, ⟨false, c2⟩)) :
    (Node.Pair l r).try_explode_children o =
      some (.Pair l2 r2, ⟨false, none⟩) := by
  simp [Node.try_explode_children, Nat.not_le.2 h, hl, hr]

/-! ## The explode rewrite, characterised on leaf sequences -/

theorem value_of_depth_le {m : Node} {c : Nat}
    (h : ∀ p ∈ m.leavesD c, p.2 ≤ 5) (hc : 5 ≤ c) : ∃ v, m = .Value v := by
  cases m with
  | Value v => exact ⟨v, rfl⟩
  | Pair u w =>
    exfalso
    obtain ⟨p, hp⟩ := List.exists_mem_of_ne_nil _ (leavesD_ne_nil u (c + 1))
    have h1 := leavesD_depth_ge u (c + 1) p hp
    have h2 := h p (by
      simp only [Node.leavesD, List.mem_append]
      exact Or.inl hp)
    omega

theorem explode_spec_none (n : Node) : ∀ (e : Nat), e ≤ 3 →
    splitFirstDeep (n.leavesD e) = none →
    n.try_explode_children (e + 1) = some (n, ⟨false, none⟩) := by
  induction n with
  | Value v => intro e _ _; exact te_value v (e + 1)
  | Pair l r ihl ihr =>
    intro e he h
    have hdep := (splitFirstDeep_eq_none_iff _).1 h
    have hdepl : ∀ p ∈ l.leavesD (e + 1), p.2 ≤ OUTER_PAIR_LIMIT := by
      intro p hp
      exact hdep p (by
        simp only [Node.leavesD, List.mem_append]
        exact Or.inl hp)
    have hdepr : ∀ p ∈ r.leavesD (e + 1), p.2 ≤ OUTER_PAIR_LIMIT := by
      intro p hp
      exact hdep p (by
        simp only [Node.leavesD, List.mem_append]
        exact Or.inr hp)
    by_cases he3 : e = 3
    · subst he3
      obtain ⟨x, hx⟩ : ∃ v, l = Node.Value v := by
        cases l with
        | Value v => exact ⟨v, rfl⟩
        | Pair u w =>
          exfalso
          obtain ⟨p, hp⟩ := List.exists_mem_of_ne_nil _ (leavesD_ne_nil u 5)
          have h1 := leavesD_depth_ge u 5 p hp
          have h2 := hdepl p (by
            simp only [Node.leavesD, List.mem_append]
            exact Or.inl hp)
          rw [OPL_eq] at h2
          omega
      obtain ⟨y, hy⟩ : ∃ v, r = Node.Value v := by
        cases r with
        | Value v => exact ⟨v, rfl⟩
        | Pair u w =>
          exfalso
          obtain ⟨p, hp⟩ := List.exists_mem_of_ne_nil _ (leavesD_ne_nil u 5)
          have h1 := leavesD_depth_ge u 5 p hp
          have h2 := hdepr p (by
            simp only [Node.leavesD, List.mem_append]
            exact Or.inl hp)
          rw [OPL_eq] at h2
          omega
      subst hx hy
      exact te_limit_val_val x y 4 (by rw [OPL_eq])
    · have he2 : e + 1 < OUTER_PAIR_LIMIT := by rw [OPL_eq]; omega
      have hnl : splitFirstDeep (l.leavesD (e + 1)) = none :=
        (splitFirstDeep_eq_none_iff _).2 hdepl
      have hnr : splitFirstDeep (r.leavesD (e + 1)) = none :=
        (splitFirstDeep_eq_none_iff _).2 hdepr
      exact te_rec_ff l r l r none none (e + 1) he2
        (ihl (e + 1) (by omega) hnl) (ihr (e + 1) (by omega) hnr)

theorem explode_spec_some (n : Node) : ∀ (e : Nat) (P : List (Nat × Nat))
    (a d : Nat) (rest : List (Nat × Nat)), e ≤ 3 →
    (∀ p ∈ n.leavesD e, p.2 ≤ 5) →
    splitFirstDeep (n.leavesD e) = some (P, a, d, rest) →
    ∃ b S n2, rest = (b, 5) :: S ∧ d = 5 ∧
      n2.leavesD e = addToLast a P ++ (0, 4) :: addToHead b S ∧
      (P = [] → n.try_explode_children (e + 1) =
        some (n2, ⟨true, some ⟨.Left, a⟩⟩)) ∧
      (P ≠ [] → S = [] → n.try_explode_children (e + 1) =
        some (n2, ⟨true, some ⟨.Right, b⟩⟩)) ∧
      (P ≠ [] → S ≠ [] → n.try_explode_children (e + 1) =
        some (n2, ⟨true, none⟩)) := by
  induction n with
  | Value v =>
    intro e P a d rest he hdep h
    exfalso
    have hsh : ¬ OUTER_PAIR_LIMIT + 1 ≤ e := by rw [OPL_eq]; omega
    simp only [Node.leavesD] at h
    rw [splitFirstDeep_cons_shallow _ hsh] at h
    simp [splitFirstDeep] at h
  | Pair l r ihl ihr =>
    intro e P a d rest he hdep h
    simp only [Node.leavesD] at h hdep
    have hdepl : ∀ p ∈ l.leavesD (e + 1), p.2 ≤ 5 :=
      fun p hp => hdep p (List.mem_append_left _ hp)
    have hdepr : ∀ p ∈ r.leavesD (e + 1), p.2 ≤ 5 :=
      fun p hp => hdep p (List.mem_append_right _ hp)
    by_cases he3 : e = 3
    · -- the call is at the outer-pair limit: the explode happens here
      subst he3
      cases l with
      | Pair l1 l2 =>
        obtain ⟨la, hla⟩ := value_of_depth_le (m := l1) (c := 5)
          (fun p hp => hdepl p (by
            simp only [Node.leavesD, List.mem_append]
            exact Or.inl hp)) (by omega)
        obtain ⟨lb, hlb⟩ := value_of_depth_le (m := l2) (c := 5)
          (fun p hp => hdepl p (by
            simp only [Node.leavesD, List.mem_append]
            exact Or.inr hp)) (by omega)
        subst hla hlb
        simp only [Node.leavesD, List.cons_append, List.nil_append] at h
        rw [splitFirstDeep_cons_deep _ (by rw [OPL_eq])] at h
        simp only [Option.some.injEq, Prod.mk.injEq] at h
        obtain ⟨hP, ha, hd, hrest⟩ := h
        subst hP ha hd hrest
        refine ⟨lb, r.leavesD 4,
          .Pair (.Value 0) (r.accept_carry_value ⟨.Right, lb⟩), rfl, rfl, ?_,
          ?_, ?_, ?_⟩
        · simp [Node.leavesD, accept_Right, addToLast]
        · intro _
          exact te_limit_pair_left la lb r 4 OPL_eq.le
        · intro hne _
          exact absurd rfl hne
        · intro hne _
          exact absurd rfl hne
      | Value x =>
        cases r with
        | Value y =>
          exfalso
          simp only [Node.leavesD, List.cons_append, List.nil_append] at h
          rw [splitFirstDeep_cons_shallow _ (by rw [OPL_eq]; omega)] at h
          rw [splitFirstDeep_cons_shallow _ (by rw [OPL_eq]; omega)] at h
          simp [splitFirstDeep] at h
        | Pair r1 r2 =>
          obtain ⟨ra, hra⟩ := value_of_depth_le (m := r1) (c := 5)
            (fun p hp => hdepr p (by
              simp only [Node.leavesD, List.mem_append]
              exact Or.inl hp)) (by omega)
          obtain ⟨rb, hrb⟩ := value_of_depth_le (m := r2) (c := 5)
            (fun p hp => hdepr p (by
              simp only [Node.leavesD, List.mem_append]
              exact Or.inr hp)) (by omega)
          subst hra hrb
          simp only [Node.leavesD, List.cons_append, List.nil_append] at h
          rw [splitFirstDeep_cons_shallow _ (by rw [OPL_eq]; omega)] at h
          rw [splitFirstDeep_cons_deep _ (by rw [OPL_eq])] at h
          simp only [Option.map_some', Option.some.injEq, Prod.mk.injEq] at h
          obtain ⟨hP, ha, hd, hrest⟩ := h
          subst hP ha hd hrest
          refine ⟨rb, [], .Pair (.Value (x + ra)) (.Value 0), rfl, rfl, ?_,
            ?_, ?_, ?_⟩
          · simp [Node.leavesD, addToLast, addToHead]
          · intro h1
            exact absurd h1 (by simp)
          · intro _ _
            exact te_limit_val_pair x ra rb 4 OPL_eq.le
          · intro _ hS
            exact absurd rfl hS
    · -- below the limit: recursive search, left child first
      have he2 : e + 1 < OUTER_PAIR_LIMIT := by rw [OPL_eq]; omega
      cases hsl : splitFirstDeep (l.leavesD (e + 1)) with
      | some q1 =>
        obtain ⟨P1, a1, d1, rest1⟩ := q1
        rw [splitFirstDeep_append_some hsl (r.leavesD (e + 1))] at h
        simp only [Option.some.injEq, Prod.mk.injEq] at h
        obtain ⟨hP, ha, hd, hrest⟩ := h
        subst hP ha hd hrest
        obtain ⟨b1, S1, l2, hrest1, hd1, hlv, c1, c2, c3⟩ :=
          ihl (e + 1) P1 a1 d1 rest1 (by omega) hdepl hsl
        subst hd1 hrest1
        by_cases hP1 : P1 = []
        · subst hP1
          have hS1ne : S1 ≠ [] := by
            intro hS1
            subst hS1
            obtain ⟨hfacts, _, _⟩ := splitFirstDeep_some_facts hsl
            obtain ⟨_, hdd, _⟩ := leavesD_two (by simpa using hfacts)
            omega
          have hres := c1 rfl
          refine ⟨b1, S1 ++ r.leavesD (e + 1), .Pair l2 r, by simp, rfl,
            ?_, ?_, ?_, ?_⟩
          · simp only [Node.leavesD, hlv, addToLast, List.nil_append,
              List.cons_append, addToHead_append _ _ _ hS1ne]
          · intro _
            exact te_rec_ll l r l2 a1 (e + 1) he2 hres
          · intro hne _
            exact absurd rfl hne
          · intro hne _
            exact absurd rfl hne
        · by_cases hS1 : S1 = []
          · subst hS1
            have hres := c2 hP1 rfl
            have hLrne := leavesD_ne_nil r (e + 1)
            refine ⟨b1, [] ++ r.leavesD (e + 1),
              .Pair l2 (r.accept_carry_value ⟨.Right, b1⟩), by simp, rfl,
              ?_, ?_, ?_, ?_⟩
            · simp only [Node.leavesD, hlv, accept_Right, addToHead,
                List.nil_append, List.cons_append, List.append_assoc]
            · intro h1
              exact absurd h1 hP1
            · intro _ hS
              exact absurd (by simpa using hS) hLrne
            · intro _ _
              exact te_rec_lr l r l2 b1 (e + 1) he2 hres
          · have hres := c3 hP1 hS1
            refine ⟨b1, S1 ++ r.leavesD (e + 1), .Pair l2 r, by simp, rfl,
              ?_, ?_, ?_, ?_⟩
            · simp only [Node.leavesD, hlv, List.cons_append,
                List.append_assoc, addToHead_append _ _ _ hS1]
            · intro h1
              exact absurd h1 hP1
            · intro _ hS
              exact absurd (List.append_eq_nil.1 hS).1 hS1
            · intro _ _
              exact te_rec_ln l r l2 (e + 1) he2 hres
      | none =>
        have hl_res := explode_spec_none l (e + 1) (by omega) hsl
        rw [splitFirstDeep_append_none hsl (r.leavesD (e + 1))] at h
        cases hsr : splitFirstDeep (r.leavesD (e + 1)) with
        | none =>
          rw [hsr] at h
          simp at h
        | some q2 =>
          obtain ⟨P2, a2, d2, rest2⟩ := q2
          rw [hsr] at h
          simp only [Option.map_some', Option.some.injEq, Prod.mk.injEq] at h
          obtain ⟨hP, ha, hd, hrest⟩ := h
          subst hP ha hd hrest
          obtain ⟨b2, S2, r2, hrest2, hd2, hlv, c1, c2, c3⟩ :=
            ihr (e + 1) P2 a2 d2 rest2 (by omega) hdepr hsr
          subst hd2 hrest2
          have hLlne := leavesD_ne_nil l (e + 1)
          by_cases hP2 : P2 = []
          · subst hP2
            have hS2ne : S2 ≠ [] := by
              intro hS2
              subst hS2
              obtain ⟨hfacts, _, _⟩ := splitFirstDeep_some_facts hsr
              obtain ⟨_, hdd, _⟩ := leavesD_two (by simpa using hfacts)
              omega
            have hres := c1 rfl
            refine ⟨b2, S2, .Pair (l.accept_carry_value ⟨.Left, a2⟩) r2,
              rfl, rfl, ?_, ?_, ?_, ?_⟩
            · simp only [Node.leavesD, accept_Left, hlv, addToLast,
                List.nil_append, List.append_nil, List.cons_append,
                List.append_assoc]
            · intro h1
              exact absurd (by simpa using h1) hLlne
            · intro _ hS
              exact absurd hS hS2ne
            · intro _ _
              exact te_rec_rl l r l r2 none a2 (e + 1) he2 hl_res hres
          · by_cases hS2 : S2 = []
            · subst hS2
              have hres := c2 hP2 rfl
              refine ⟨b2, [], .Pair l r2, rfl, rfl, ?_, ?_, ?_, ?_⟩
              · rw [addToLast_append a2 _ _ hP2]
                simp only [Node.leavesD, hlv, List.cons_append,
                  List.append_assoc]
              · intro h1
                exact absurd (List.append_eq_nil.1 h1).1 hLlne
              · intro _ _
                exact te_rec_rr l r l r2 none b2 (e + 1) he2 hl_res hres
              · intro _ hS
                exact absurd rfl hS
            · have hres := c3 hP2 hS2
              refine ⟨b2, S2, .Pair l r2, rfl, rfl, ?_, ?_, ?_, ?_⟩
              · rw [addToLast_append a2 _ _ hP2]
                simp only [Node.leavesD, hlv, List.cons_append,
                  List.append_assoc]
              · intro h1
                exact absurd (List.append_eq_nil.1 h1).1 hLlne
              · intro _ hS
                exact absurd hS hS2
              · intro _ _
                exact te_rec_rn l r l r2 none (e + 1) he2 hl_res hres

/-! ## The split rewrite, characterised on leaf sequences -/

theorem specSplitLeaves_id {A : List (Nat × Nat)}
    (h : ∀ p ∈ A, p.1 < SPLIT_LIMIT) : specSplitLeaves A = A := by
  induction A with
  | nil => rfl
  | cons p rest ih =>
    obtain ⟨v, d⟩ := p
    have hv : ¬ SPLIT_LIMIT ≤ v := by
      have := h (v, d) (List.mem_cons_self _ _)
      omega
    simp only [specSplitLeaves, if_neg hv]
    rw [ih fun q hq => h q (List.mem_cons_of_mem _ hq)]

theorem specSplitLeaves_append_small {A : List (Nat × Nat)}
    (h : ∀ p ∈ A, p.1 < SPLIT_LIMIT) (B : List (Nat × Nat)) :
    specSplitLeaves (A ++ B) = A ++ specSplitLeaves B := by
  induction A with
  | nil => simp
  | cons p rest ih =>
    obtain ⟨v, d⟩ := p
    have hv : ¬ SPLIT_LIMIT ≤ v := by
      have := h (v, d) (List.mem_cons_self _ _)
      omega
    simp only [List.cons_append, specSplitLeaves, if_neg hv, List.append_eq]
    rw [ih fun q hq => h q (List.mem_cons_of_mem _ hq)]

theorem specSplitLeaves_append_big {A : List (Nat × Nat)}
    (h : ∃ p ∈ A, SPLIT_LIMIT ≤ p.1) (B : List (Nat × Nat)) :
    specSplitLeaves (A ++ B) = specSplitLeaves A ++ B := by
  induction A with
  | nil => simp at h
  | cons p rest ih =>
    obtain ⟨v, d⟩ := p
    by_cases hv : SPLIT_LIMIT ≤ v
    · simp [specSplitLeaves, hv]
    · have hrest : ∃ p ∈ rest, SPLIT_LIMIT ≤ p.1 := by
        obtain ⟨q, hq, hq2⟩ := h
        rcases List.mem_cons.1 hq with hq | hq
        · exfalso
          rw [hq] at hq2
          exact hv hq2
        · exact ⟨q, hq, hq2⟩
      simp only [List.cons_append, specSplitLeaves, if_neg hv, List.append_eq]
      rw [ih hrest]

theorem ts_value_big {v : Nat} (h : SPLIT_LIMIT ≤ v) :
    (Node.Value v).try_split_children =
      (.Pair (.Value (v / 2)) (.Value (v - v / 2)), true) := by
  simp [Node.try_split_children, h]

theorem ts_value_small {v : Nat} (h : ¬ SPLIT_LIMIT ≤ v) :
    (Node.Value v).try_split_children = (.Value v, false) := by
  simp [Node.try_split_children, h]

theorem ts_pair_lt {l r l2 : Node} (hl : l.try_split_children = (l2, true)) :
    (Node.Pair l r).try_split_children = (.Pair l2 r, true) := by
  simp [Node.try_split_children, hl]

theorem ts_pair_lf {l r l2 r2 : Node} {b : Bool}
    (hl : l.try_split_children = (l2, false))
    (hr : r.try_split_children = (r2, b)) :
    (Node.Pair l r).try_split_children = (.Pair l2 r2, b) := by
  simp [Node.try_split_children, hl, hr]

theorem split_spec (n : Node) : ∀ e : Nat,
    ∃ n2 b, n.try_split_children = (n2, b) ∧
      n2.leavesD e = specSplitLeaves (n.leavesD e) ∧
      (b = true ↔ ∃ p ∈ n.leavesD e, SPLIT_LIMIT ≤ p.1) ∧
      (b = false → n2 = n) := by
  induction n with
  | Value v =>
    intro e
    by_cases hv : SPLIT_LIMIT ≤ v
    · refine ⟨.Pair (.Value (v / 2)) (.Value (v - v / 2)), true,
        ts_value_big hv, ?_, ?_, by simp⟩
      · simp [Node.leavesD, specSplitLeaves, hv]
      · simp [Node.leavesD]
        exact hv
    · refine ⟨.Value v, false, ts_value_small hv, ?_, ?_, fun _ => rfl⟩
      · simp [Node.leavesD, specSplitLeaves, hv]
      · simp [Node.leavesD]
        omega
  | Pair l r ihl ihr =>
    intro e
    obtain ⟨l2, bl, hleq, hllv, hliff, hlid⟩ := ihl (e + 1)
    cases bl with
    | true =>
      have hbig : ∃ p ∈ l.leavesD (e + 1), SPLIT_LIMIT ≤ p.1 := hliff.1 rfl
      refine ⟨.Pair l2 r, true, ts_pair_lt hleq, ?_, ?_, by simp⟩
      · simp only [Node.leavesD, hllv,
          specSplitLeaves_append_big hbig (r.leavesD (e + 1))]
      · simp only [Node.leavesD, List.mem_append, true_iff]
        obtain ⟨p, hp, hp2⟩ := hbig
        exact ⟨p, Or.inl hp, hp2⟩
    | false =>
      have hlsmall : ∀ p ∈ l.leavesD (e + 1), p.1 < SPLIT_LIMIT := by
        intro p hp
        by_contra hc
        exact absurd (hliff.2 ⟨p, hp, by omega⟩) (by simp)
      have hl2 : l2 = l := hlid rfl
      subst hl2
      obtain ⟨r2, br, hreq, hrlv, hriff, hrid⟩ := ihr (e + 1)
      refine ⟨.Pair l2 r2, br, ts_pair_lf hleq hreq, ?_, ?_, ?_⟩
      · simp only [Node.leavesD, hrlv,
          specSplitLeaves_append_small hlsmall (r.leavesD (e + 1))]
      · constructor
        · intro hb
          obtain ⟨p, hp, hp2⟩ := hriff.1 hb
          exact ⟨p, by
            simp only [Node.leavesD, List.mem_append]
            exact Or.inr hp, hp2⟩
        · intro ⟨p, hp, hp2⟩
          simp only [Node.leavesD, List.mem_append] at hp
          rcases hp with hp | hp
          · exact absurd (hlsmall p hp) (by omega)
          · exact hriff.2 ⟨p, hp, hp2⟩
      · intro hb
        rw [hrid hb]

/-! ## Linking the tree-level predicates to leaf sequences -/

theorem leavesD_shift (n : Node) : ∀ e : Nat,
    n.leavesD (e + 1) = (n.leavesD e).map fun p => (p.1, p.2 + 1) := by
  induction n with
  | Value v => intro e; simp [Node.leavesD]
  | Pair l r ihl ihr =>
    intro e
    simp only [Node.leavesD, ihl (e + 1), ihr (e + 1), List.map_append]

theorem explode_safe_at_iff_leaves (n : Node) : ∀ e : Nat, e ≤ 4 →
    (n.explode_safe_at e = true ↔ ∀ p ∈ n.leavesD e, p.2 ≤ 5) := by
  induction n with
  | Value v =>
    intro e he
    simp [Node.explode_safe_at, Node.leavesD]
    omega
  | Pair l r ihl ihr =>
    intro e he
    by_cases h4 : e < OUTER_PAIR_LIMIT
    · have hd : decide (e < OUTER_PAIR_LIMIT) = true := decide_eq_true h4
      rw [OPL_eq] at h4
      constructor
      · intro hs p hp
        simp only [Node.explode_safe_at, hd, Bool.true_or, Bool.true_and,
          Bool.and_eq_true] at hs
        simp only [Node.leavesD, List.mem_append] at hp
        rcases hp with hp | hp
        · exact (ihl (e + 1) (by omega)).1 hs.1 p hp
        · exact (ihr (e + 1) (by omega)).1 hs.2 p hp
      · intro hlv
        simp only [Node.explode_safe_at, hd, Bool.true_or, Bool.true_and,
          Bool.and_eq_true]
        refine ⟨(ihl (e + 1) (by omega)).2 ?_, (ihr (e + 1) (by omega)).2 ?_⟩
        · intro p hp
          exact hlv p (by
            simp only [Node.leavesD, List.mem_append]
            exact Or.inl hp)
        · intro p hp
          exact hlv p (by
            simp only [Node.leavesD, List.mem_append]
            exact Or.inr hp)
    · have he4 : e = 4 := by rw [OPL_eq] at h4; omega
      subst he4
      constructor
      · intro hs p hp
        cases l with
        | Pair u w => simp [Node.explode_safe_at, Node.isValue, OPL_eq] at hs
        | Value x =>
          cases r with
          | Pair u w => simp [Node.explode_safe_at, Node.isValue, OPL_eq] at hs
          | Value y =>
            simp only [Node.leavesD, List.cons_append, List.nil_append,
              List.mem_cons, List.not_mem_nil] at hp
            rcases hp with hp | hp | hp
            · simp [hp]
            · simp [hp]
            · exact absurd hp (by simp)
      · intro hlv
        obtain ⟨x, hx⟩ := value_of_depth_le (m := l) (c := 5)
          (fun p hp => hlv p (by
            simp only [Node.leavesD, List.mem_append]
            exact Or.inl hp)) (by omega)
        obtain ⟨y, hy⟩ := value_of_depth_le (m := r) (c := 5)
          (fun p hp => hlv p (by
            simp only [Node.leavesD, List.mem_append]
            exact Or.inr hp)) (by omega)
        subst hx hy
        simp [Node.explode_safe_at, Node.isValue]

theorem explode_safe_iff_leaves (n : Node) :
    n.explode_safe = true ↔ ∀ p ∈ n.leavesD 0, p.2 ≤ 5 :=
  explode_safe_at_iff_leaves n 0 (by omega)

theorem pair_free_iff_leaves (n : Node) :
    n.pair_free = true ↔ ∀ p ∈ n.leavesD 0, p.2 ≤ 4 := by
  rw [Node.pair_free, explode_safe_at_iff_leaves n 1 (by omega)]
  rw [show (1 : Nat) = 0 + 1 from rfl, leavesD_shift n 0]
  constructor
  · intro h p hp
    have := h (p.1, p.2 + 1) (List.mem_map_of_mem _ hp)
    omega
  · intro h p hp
    obtain ⟨q, hq, hq2⟩ := List.mem_map.1 hp
    have := h q hq
    rw [← hq2]
    simp
    omega

theorem values_lt_iff_leaves (n : Node) (bound : Nat) : ∀ e : Nat,
    (n.values_lt bound = true ↔ ∀ p ∈ n.leavesD e, p.1 < bound) := by
  induction n with
  | Value v => intro e; simp [Node.values_lt, Node.leavesD]
  | Pair l r ihl ihr =>
    intro e
    simp only [Node.values_lt, Bool.and_eq_true, ihl (e + 1), ihr (e + 1),
      Node.leavesD, List.mem_append]
    constructor
    · intro ⟨h1, h2⟩ p hp
      rcases hp with hp | hp
      · exact h1 p hp
      · exact h2 p hp
    · intro h
      exact ⟨fun p hp => h p (Or.inl hp), fun p hp => h p (Or.inr hp)⟩

/-! ## Depth preservation of the two rewrites -/

theorem addToHead_snd (b : Nat) (L : List (Nat × Nat)) :
    (addToHead b L).map Prod.snd = L.map Prod.snd := by
  cases L with
  | nil => rfl
  | cons p rest => cases p; simp [addToHead]

theorem addToLast_snd (a : Nat) (L : List (Nat × Nat)) :
    (addToLast a L).map Prod.snd = L.map Prod.snd := by
  induction L with
  | nil => rfl
  | cons p rest ih =>
    cases rest with
    | nil => cases p; simp [addToLast]
    | cons q t =>
      rw [addToLast_cons a p _ (by simp)]
      simpa using ih

theorem depth_le_of_snd_eq {L L2 : List (Nat × Nat)} {k : Nat}
    (hmap : L2.map Prod.snd = L.map Prod.snd)
    (h : ∀ p ∈ L, p.2 ≤ k) : ∀ p ∈ L2, p.2 ≤ k := by
  intro p hp
  have h1 : p.2 ∈ L2.map Prod.snd := List.mem_map_of_mem _ hp
  rw [hmap] at h1
  obtain ⟨q, hq, hq2⟩ := List.mem_map.1 h1
  rw [← hq2]
  exact h q hq

theorem specExplode_depth_le {L : List (Nat × Nat)}
    (h : ∀ p ∈ L, p.2 ≤ 5) : ∀ p ∈ specExplodeLeaves L, p.2 ≤ 5 := by
  cases hs : splitFirstDeep L with
  | none =>
    simp only [specExplodeLeaves, hs]
    exact h
  | some q =>
    obtain ⟨P, a, d, rest⟩ := q
    obtain ⟨hL, hd, hP⟩ := splitFirstDeep_some_facts hs
    rw [OPL_eq] at hd
    have hdL : d ≤ 5 := h (a, d) (by
      rw [hL]
      exact List.mem_append_right _ (List.mem_cons_self _ _))
    have hP4 : ∀ q ∈ P, q.2 ≤ 4 := by
      intro q hq
      have := hP q hq
      rw [OPL_eq] at this
      omega
    simp only [specExplodeLeaves, hs]
    intro p hp
    rcases List.mem_append.1 hp with hp | hp
    · have := depth_le_of_snd_eq (addToLast_snd a P) hP4 p hp
      omega
    · rcases List.mem_cons.1 hp with hp | hp
      · rw [hp]
        show d - 1 ≤ 5
        omega
      · refine depth_le_of_snd_eq (addToHead_snd _ rest.tail) ?_ p hp
        intro q hq
        have hq2 : q ∈ L := by
          rw [hL]
          exact List.mem_append_right _
            (List.mem_cons_of_mem _ (List.mem_of_mem_tail hq))
        exact h q hq2

theorem specSplit_depth_le {L : List (Nat × Nat)} {k : Nat}
    (h : ∀ p ∈ L, p.2 ≤ k) : ∀ p ∈ specSplitLeaves L, p.2 ≤ k + 1 := by
  induction L with
  | nil => simp [specSplitLeaves]
  | cons q rest ih =>
    obtain ⟨v, d⟩ := q
    have hd : d ≤ k := h (v, d) (List.mem_cons_self _ _)
    have hrest : ∀ p ∈ rest, p.2 ≤ k :=
      fun p hp => h p (List.mem_cons_of_mem _ hp)
    by_cases hv : SPLIT_LIMIT ≤ v
    · simp only [specSplitLeaves, if_pos hv]
      intro p hp
      rcases List.mem_cons.1 hp with hp | hp
      · rw [hp]; show d + 1 ≤ k + 1; omega
      · rcases List.mem_cons.1 hp with hp | hp
        · rw [hp]; show d + 1 ≤ k + 1; omega
        · have := hrest p hp
          omega
    · simp only [specSplitLeaves, if_neg hv]
      intro p hp
      rcases List.mem_cons.1 hp with hp | hp
      · rw [hp]; show d ≤ k + 1; omega
      · exact ih hrest p hp

/-! ## One full pass of each phase, at the root call -/

theorem leavesD_le_shift {n : Node} {k : Nat}
    (h : ∀ p ∈ n.leavesD 0, p.2 ≤ k) : ∀ p ∈ n.leavesD 1, p.2 ≤ k + 1 := by
  intro p hp
  rw [show (1 : Nat) = 0 + 1 from rfl, leavesD_shift n 0] at hp
  obtain ⟨q, hq, hq2⟩ := List.mem_map.1 hp
  have := h q hq
  rw [← hq2]
  show q.2 + 1 ≤ k + 1
  omega

theorem explode_top (n : Node) (h : ∀ p ∈ n.leavesD 0, p.2 ≤ 5) :
    ∃ n2 res, n.try_explode_children 1 = some (n2, res) ∧
      n2.leavesD 0 = specExplodeLeaves (n.leavesD 0) ∧
      (res.exploded = true ↔ splitFirstDeep (n.leavesD 0) ≠ none) := by
  cases hs : splitFirstDeep (n.leavesD 0) with
  | none =>
    refine ⟨n, ⟨false, none⟩, ?_, ?_, ?_⟩
    · exact explode_spec_none n 0 (by omega) hs
    · simp [specExplodeLeaves, hs]
    · simp
  | some q =>
    obtain ⟨P, a, d, rest⟩ := q
    obtain ⟨b, S, n2, hrest, hd, hlv, c1, c2, c3⟩ :=
      explode_spec_some n 0 P a d rest (by omega) h hs
    subst hrest hd
    have hspec : specExplodeLeaves (n.leavesD 0) =
        addToLast a P ++ (0, 4) :: addToHead b S := by
      simp [specExplodeLeaves, hs]
    by_cases hP : P = []
    · subst hP
      exact ⟨n2, ⟨true, some ⟨.Left, a⟩⟩, c1 rfl, by rw [hlv, hspec], by simp⟩
    · by_cases hS : S = []
      · subst hS
        exact ⟨n2, ⟨true, some ⟨.Right, b⟩⟩, c2 hP rfl, by rw [hlv, hspec],
          by simp⟩
      · exact ⟨n2, ⟨true, none⟩, c3 hP hS, by rw [hlv, hspec], by simp⟩

/-! ## The reduction loop: stability under extra fuel, and its fixed
points -/

theorem rf_step_none {n : Node} {fuel : Nat}
    (h : n.try_explode_children 1 = none) :
    Node.reduce_fuel (fuel + 1) n = .panicked := by
  simp [Node.reduce_fuel, h]

theorem rf_step_exploded {n n1 : Node} {res : ExplodeResult} {fuel : Nat}
    (h : n.try_explode_children 1 = some (n1, res))
    (hex : res.exploded = true) :
    Node.reduce_fuel (fuel + 1) n = Node.reduce_fuel fuel n1 := by
  simp only [Node.reduce_fuel, h, hex, if_true]

theorem rf_step_split {n n1 n2 : Node} {res : ExplodeResult} {fuel : Nat}
    (h : n.try_explode_children 1 = some (n1, res))
    (hex : res.exploded = false)
    (hs : n1.try_split_children = (n2, true)) :
    Node.reduce_fuel (fuel + 1) n = Node.reduce_fuel fuel n2 := by
  simp only [Node.reduce_fuel, h, hex, Bool.false_eq_true, if_false, hs]

theorem rf_step_done {n n1 n2 : Node} {res : ExplodeResult} {fuel : Nat}
    (h : n.try_explode_children 1 = some (n1, res))
    (hex : res.exploded = false)
    (hs : n1.try_split_children = (n2, false)) :
    Node.reduce_fuel (fuel + 1) n = .done n2 := by
  simp only [Node.reduce_fuel, h, hex, Bool.false_eq_true, if_false, hs]

theorem reduce_fuel_succ : ∀ (fuel : Nat) (n m : Node),
    Node.reduce_fuel fuel n = .done m →
    Node.reduce_fuel (fuel + 1) n = .done m := by
  intro fuel
  induction fuel with
  | zero => intro n m h; simp [Node.reduce_fuel] at h
  | succ fuel ih =>
    intro n m h
    cases hte : n.try_explode_children 1 with
    | none =>
      rw [rf_step_none hte] at h
      simp at h
    | some p =>
      obtain ⟨n1, res⟩ := p
      cases hex : res.exploded with
      | true =>
        rw [rf_step_exploded hte hex] at h
        rw [rf_step_exploded hte hex]
        exact ih n1 m h
      | false =>
        cases hts : n1.try_split_children with
        | mk n2 b =>
          cases b with
          | true =>
            rw [rf_step_split hte hex hts] at h
            rw [rf_step_split hte hex hts]
            exact ih n2 m h
          | false =>
            rw [rf_step_done hte hex hts] at h
            rw [rf_step_done hte hex hts]
            exact h

theorem reduce_fuel_le {f g : Nat} (h : f ≤ g) (n m : Node)
    (hred : Node.reduce_fuel f n = .done m) :
    Node.reduce_fuel g n = .done m := by
  induction g, h using Nat.le_induction with
  | base => exact hred
  | succ g _ ih => exact reduce_fuel_succ g n m ih

theorem add_numbers_mono {f g : Nat} (h : f ≤ g) (a b s : SnailfishNumber)
    (hadd : add_numbers f a b = some s) : add_numbers g a b = some s := by
  cases hred : Node.reduce_fuel f (.Pair a.toNode b.toNode) with
  | done m =>
    have h2 := reduce_fuel_le h _ _ hred
    cases m with
    | Value v => simp [add_numbers, hred] at hadd
    | Pair l r =>
      simp only [add_numbers, hred] at hadd
      simp only [add_numbers, h2]
      exact hadd
  | panicked => simp [add_numbers, hred] at hadd
  | fuel_out => simp [add_numbers, hred] at hadd

theorem reduce_fuel_done_inv : ∀ (fuel : Nat) (n m : Node),
    (∀ p ∈ n.leavesD 0, p.2 ≤ 5) →
    Node.reduce_fuel fuel n = .done m →
    (∀ p ∈ m.leavesD 0, p.2 ≤ 4) ∧
      (∀ p ∈ m.leavesD 0, p.1 < SPLIT_LIMIT) := by
  intro fuel
  induction fuel with
  | zero => intro n m _ h; simp [Node.reduce_fuel] at h
  | succ fuel ih =>
    intro n m hinv h
    obtain ⟨n2, res, hte, hlv, hiff⟩ := explode_top n hinv
    cases hex : res.exploded with
    | true =>
      rw [rf_step_exploded hte hex] at h
      refine ih n2 m ?_ h
      rw [hlv]
      exact specExplode_depth_le hinv
    | false =>
      have hnone : splitFirstDeep (n.leavesD 0) = none := by
        cases hs : splitFirstDeep (n.leavesD 0) with
        | none => rfl
        | some q =>
          exfalso
          have := hiff.2 (by rw [hs]; simp)
          rw [this] at hex
          simp at hex
      have hlv2 : n2.leavesD 0 = n.leavesD 0 := by
        rw [hlv]
        simp [specExplodeLeaves, hnone]
      have hdep4 : ∀ p ∈ n2.leavesD 0, p.2 ≤ 4 := by
        rw [hlv2]
        intro p hp
        have := (splitFirstDeep_eq_none_iff _).1 hnone p hp
        rw [OPL_eq] at this
        omega
      obtain ⟨m2, bb, hts, hslv, hsiff, hsid⟩ := split_spec n2 0
      cases bb with
      | true =>
        rw [rf_step_split hte hex hts] at h
        refine ih m2 m ?_ h
        rw [hslv]
        intro p hp
        have := specSplit_depth_le hdep4 p hp
        omega
      | false =>
        rw [rf_step_done hte hex hts] at h
        have hm : m2 = m := by
          simpa using h
        have hmn : m2 = n2 := hsid rfl
        subst hm
        constructor
        · rw [hmn]
          exact hdep4
        · intro p hp
          by_contra hc
          have hbig : ∃ p ∈ m2.leavesD 0, SPLIT_LIMIT ≤ p.1 :=
            ⟨p, hp, by omega⟩
          rw [hmn] at hbig
          exact absurd (hsiff.2 hbig) (by simp)

/-! ## Claim theorems -/

/-! ## Arithmetic of the termination measure -/

theorem sumVals_append (A B : List (Nat × Nat)) :
    sumVals (A ++ B) = sumVals A + sumVals B := by
  simp [sumVals]

theorem sumVals_cons (v d : Nat) (L : List (Nat × Nat)) :
    sumVals ((v, d) :: L) = v + sumVals L := by
  simp [sumVals]

theorem sumVals_addToLast_le (a : Nat) : ∀ P : List (Nat × Nat),
    sumVals (addToLast a P) ≤ sumVals P + a := by
  intro P
  induction P with
  | nil => simp [addToLast, sumVals]
  | cons p rest ih =>
    cases rest with
    | nil =>
      obtain ⟨v, d⟩ := p
      simp [addToLast, sumVals]
    | cons q t =>
      obtain ⟨v, d⟩ := p
      rw [addToLast_cons a (v, d) _ (by simp), sumVals_cons, sumVals_cons]
      omega

theorem sumVals_addToHead_le (b : Nat) (S : List (Nat × Nat)) :
    sumVals (addToHead b S) ≤ sumVals S + b := by
  cases S with
  | nil => simp [addToHead, sumVals]
  | cons p rest =>
    obtain ⟨v, d⟩ := p
    show sumVals ((v + b, d) :: rest) ≤ sumVals ((v, d) :: rest) + b
    rw [sumVals_cons, sumVals_cons]
    omega

theorem countDeep_append (A B : List (Nat × Nat)) :
    countDeep (A ++ B) = countDeep A + countDeep B := by
  simp [countDeep, List.filter_append]

theorem countDeep_cons_deep {v d : Nat} (L : List (Nat × Nat)) (h : 5 ≤ d) :
    countDeep ((v, d) :: L) = countDeep L + 1 := by
  simp [countDeep, List.filter_cons, h]

theorem countDeep_cons_shallow {v d : Nat} (L : List (Nat × Nat))
    (h : d < 5) : countDeep ((v, d) :: L) = countDeep L := by
  simp [countDeep, List.filter_cons, show ¬ 5 ≤ d by omega]

theorem countDeep_eq_zero {L : List (Nat × Nat)}
    (h : ∀ p ∈ L, p.2 ≤ 4) : countDeep L = 0 := by
  induction L with
  | nil => rfl
  | cons p rest ih =>
    obtain ⟨v, d⟩ := p
    have hd := h (v, d) (List.mem_cons_self _ _)
    rw [countDeep_cons_shallow _ (by omega)]
    exact ih fun q hq => h q (List.mem_cons_of_mem _ hq)

theorem countDeep_snd : ∀ L : List (Nat × Nat),
    countDeep L = ((L.map Prod.snd).filter fun d => decide (5 ≤ d)).length := by
  intro L
  induction L with
  | nil => rfl
  | cons p rest ih =>
    obtain ⟨v, d⟩ := p
    by_cases h : 5 ≤ d
    · rw [countDeep_cons_deep _ h, ih]
      simp [List.filter_cons, h]
    · rw [countDeep_cons_shallow _ (by omega), ih]
      simp [List.filter_cons, h]

theorem countDeep_eq_of_snd_eq {L L2 : List (Nat × Nat)}
    (hmap : L2.map Prod.snd = L.map Prod.snd) :
    countDeep L2 = countDeep L := by
  rw [countDeep_snd, countDeep_snd, hmap]

theorem countDeep_le_length (L : List (Nat × Nat)) :
    countDeep L ≤ L.length :=
  List.length_filter_le _ _

theorem widthSum_append (A B : List (Nat × Nat)) :
    widthSum (A ++ B) = widthSum A + widthSum B := by
  simp [widthSum]

theorem widthSum_cons (v d : Nat) (L : List (Nat × Nat)) :
    widthSum ((v, d) :: L) = slotW d + widthSum L := by
  simp [widthSum]

theorem widthSum_snd : ∀ L : List (Nat × Nat),
    widthSum L = ((L.map Prod.snd).map slotW).sum := by
  intro L
  simp only [widthSum, List.map_map]
  rfl

theorem widthSum_eq_of_snd_eq {L L2 : List (Nat × Nat)}
    (hmap : L2.map Prod.snd = L.map Prod.snd) :
    widthSum L2 = widthSum L := by
  rw [widthSum_snd, widthSum_snd, hmap]

theorem length_le_widthSum : ∀ L : List (Nat × Nat),
    L.length ≤ widthSum L := by
  intro L
  induction L with
  | nil => simp [widthSum]
  | cons p rest ih =>
    obtain ⟨v, d⟩ := p
    have hw : 1 ≤ slotW d := Nat.one_le_two_pow
    rw [widthSum_cons]
    simp only [List.length_cons]
    omega

theorem widthSum_leaves : ∀ (n : Node) (e : Nat),
    (∀ p ∈ n.leavesD e, p.2 ≤ 5) → widthSum (n.leavesD e) = 2 ^ (5 - e) := by
  intro n
  induction n with
  | Value v => intro e _; simp [Node.leavesD, widthSum, slotW]
  | Pair l r ihl ihr =>
    intro e h
    have hl : ∀ p ∈ l.leavesD (e + 1), p.2 ≤ 5 := fun p hp => h p (by
      simp only [Node.leavesD, List.mem_append]
      exact Or.inl hp)
    have hr : ∀ p ∈ r.leavesD (e + 1), p.2 ≤ 5 := fun p hp => h p (by
      simp only [Node.leavesD, List.mem_append]
      exact Or.inr hp)
    have he4 : e ≤ 4 := by
      obtain ⟨p, hp⟩ := List.exists_mem_of_ne_nil _ (leavesD_ne_nil l (e + 1))
      have h1 := leavesD_depth_ge l (e + 1) p hp
      have h2 := hl p hp
      omega
    simp only [Node.leavesD]
    rw [widthSum_append, ihl (e + 1) hl, ihr (e + 1) hr]
    have h5 : 5 - e = (5 - (e + 1)) + 1 := by omega
    rw [h5, pow_succ]
    omega

theorem Mslots_cons (v d : Nat) (L : List (Nat × Nat)) (s : Nat) :
    Mslots ((v, d) :: L) s = v * 4 ^ s + Mslots L (s + slotW d) := rfl

theorem Mslots_append : ∀ (A B : List (Nat × Nat)) (s : Nat),
    Mslots (A ++ B) s = Mslots A s + Mslots B (s + widthSum A) := by
  intro A
  induction A with
  | nil => intro B s; simp [Mslots, widthSum]
  | cons p rest ih =>
    intro B s
    obtain ⟨v, d⟩ := p
    rw [List.cons_append, Mslots_cons, Mslots_cons, ih, widthSum_cons]
    have harg : s + slotW d + widthSum rest = s + (slotW d + widthSum rest) := by
      omega
    rw [harg]
    ring

theorem Mslots_bound : ∀ (L : List (Nat × Nat)) (s B : Nat),
    s + widthSum L ≤ B + 1 → Mslots L s ≤ sumVals L * 4 ^ B := by
  intro L
  induction L with
  | nil => intro s B _; simp [Mslots, sumVals]
  | cons p rest ih =>
    intro s B h
    obtain ⟨v, d⟩ := p
    have hw : 1 ≤ slotW d := Nat.one_le_two_pow
    rw [widthSum_cons] at h
    have h1 : v * 4 ^ s ≤ v * 4 ^ B :=
      Nat.mul_le_mul_left v (Nat.pow_le_pow_right (by omega) (by omega))
    have h2 : Mslots rest (s + slotW d) ≤ sumVals rest * 4 ^ B :=
      ih (s + slotW d) B (by omega)
    calc Mslots ((v, d) :: rest) s
        = v * 4 ^ s + Mslots rest (s + slotW d) := rfl
      _ ≤ v * 4 ^ B + sumVals rest * 4 ^ B := Nat.add_le_add h1 h2
      _ = sumVals ((v, d) :: rest) * 4 ^ B := by rw [sumVals_cons, Nat.add_mul]

theorem Mslots_addToHead (y : Nat) {B : List (Nat × Nat)} (hB : B ≠ [])
    (t : Nat) : Mslots (addToHead y B) t = y * 4 ^ t + Mslots B t := by
  cases B with
  | nil => exact absurd rfl hB
  | cons p rest =>
    obtain ⟨v, d⟩ := p
    show Mslots ((v + y, d) :: rest) t = y * 4 ^ t + Mslots ((v, d) :: rest) t
    rw [Mslots_cons, Mslots_cons]
    ring

theorem Mslots_addToLast_le (a : Nat) : ∀ (A : List (Nat × Nat)) (t : Nat),
    Mslots A t ≤ Mslots (addToLast a A) t := by
  intro A
  induction A with
  | nil => intro t; exact le_refl _
  | cons p rest ih =>
    intro t
    cases rest with
    | nil =>
      obtain ⟨v, d⟩ := p
      show Mslots [(v, d)] t ≤ Mslots [(v + a, d)] t
      rw [Mslots_cons, Mslots_cons]
      simp only [Mslots]
      exact Nat.add_le_add_right
        (mul_le_mul_right' (Nat.le_add_right v a) (4 ^ t)) _
    | cons q t2 =>
      obtain ⟨v, d⟩ := p
      rw [addToLast_cons a (v, d) _ (by simp), Mslots_cons, Mslots_cons]
      exact Nat.add_le_add_left (ih _) _

theorem slotW_succ {d : Nat} (hd : d ≤ 4) :
    slotW (d + 1) + slotW (d + 1) = slotW d := by
  unfold slotW
  have h5 : 5 - d = (5 - (d + 1)) + 1 := by omega
  rw [h5, pow_succ]
  omega

theorem Mslots_specSplit_lt {A B : List (Nat × Nat)} {v d : Nat}
    (hv : SPLIT_LIMIT ≤ v) (hd : d ≤ 4) :
    Mslots (A ++ (v, d) :: B) 0 <
      Mslots (A ++ (v / 2, d + 1) :: (v - v / 2, d + 1) :: B) 0 := by
  rw [Mslots_append, Mslots_append, Mslots_cons, Mslots_cons, Mslots_cons]
  have hw2 : 0 + widthSum A + slotW (d + 1) + slotW (d + 1) =
      0 + widthSum A + slotW d := by
    have := slotW_succ hd
    omega
  rw [hw2]
  apply Nat.add_lt_add_left
  set s := 0 + widthSum A with hsdef
  have hXY : (4:Nat) ^ s < 4 ^ (s + slotW (d + 1)) := by
    apply Nat.pow_lt_pow_right (by omega)
    have h1 : 1 ≤ slotW (d + 1) := Nat.one_le_two_pow
    omega
  have hpos : 0 < v - v / 2 := by rw [SL_eq] at hv; omega
  have hsplit : v * 4 ^ s = v / 2 * 4 ^ s + (v - v / 2) * 4 ^ s := by
    rw [← Nat.add_mul]
    congr 1
    omega
  rw [hsplit]
  have hstrict : (v - v / 2) * 4 ^ s < (v - v / 2) * 4 ^ (s + slotW (d + 1)) :=
    mul_lt_mul_of_pos_left hXY hpos
  have hkey := Nat.add_lt_add_right hstrict (Mslots B (s + slotW d))
  calc v / 2 * 4 ^ s + (v - v / 2) * 4 ^ s + Mslots B (s + slotW d)
      = v / 2 * 4 ^ s + ((v - v / 2) * 4 ^ s + Mslots B (s + slotW d)) := by
        ring
    _ < v / 2 * 4 ^ s +
        ((v - v / 2) * 4 ^ (s + slotW (d + 1)) + Mslots B (s + slotW d)) :=
        Nat.add_lt_add_left hkey _

theorem Mslots_explode_deep_lt {A B : List (Nat × Nat)} {v : Nat}
    (hv : SPLIT_LIMIT ≤ v) (hB : B ≠ []) :
    Mslots (A ++ (v, 4) :: B) 0 <
      Mslots (addToLast (v / 2) A ++ (0, 4) :: addToHead (v - v / 2) B) 0 := by
  rw [Mslots_append, Mslots_append,
    widthSum_eq_of_snd_eq (addToLast_snd (v / 2) A), Mslots_cons, Mslots_cons,
    Mslots_addToHead (v - v / 2) hB]
  set s := 0 + widthSum A with hsdef
  have hkey : v * 4 ^ s < (v - v / 2) * 4 ^ (s + slotW 4) := by
    have h16 : (4:Nat) ^ (s + slotW 4) = 4 ^ s * 16 := by
      show (4:Nat) ^ (s + 2) = 4 ^ s * 16
      rw [pow_add]
      norm_num
    calc v * 4 ^ s < (16 * (v - v / 2)) * 4 ^ s := by
          apply mul_lt_mul_of_pos_right ?_ (pow_pos (by omega) s)
          rw [SL_eq] at hv
          omega
      _ = (v - v / 2) * (4 ^ s * 16) := by ring
      _ = (v - v / 2) * 4 ^ (s + slotW 4) := by rw [h16]
  refine add_lt_add_of_le_of_lt (Mslots_addToLast_le (v / 2) A 0) ?_
  rw [Nat.zero_mul, Nat.zero_add]
  exact Nat.add_lt_add_right hkey _

/-! ## The three lexicographic decrease principles -/

theorem measure3_lt_of_sum_lt {T : Nat} {L L2 : List (Nat × Nat)}
    (hc : countDeep L2 ≤ 32)
    (ht : (sumVals L2 + 1) * 4 ^ 31 < T)
    (hs : sumVals L2 < sumVals L) :
    measure3 T L2 < measure3 T L := by
  have ht2 : (sumVals L2 + 1) * 4 ^ 31 - Mslots L2 0 < T :=
    lt_of_le_of_lt (Nat.sub_le _ _) ht
  have hc2 : countDeep L2 * T ≤ 32 * T := mul_le_mul_right' hc T
  have hstep : (sumVals L2 + 1) * (33 * T) ≤ sumVals L * (33 * T) :=
    mul_le_mul_right' (by omega) (33 * T)
  unfold measure3
  calc sumVals L2 * (33 * T) + countDeep L2 * T +
        ((sumVals L2 + 1) * 4 ^ 31 - Mslots L2 0)
      < sumVals L2 * (33 * T) + 32 * T + T :=
        add_lt_add_of_le_of_lt (Nat.add_le_add_left hc2 _) ht2
    _ = (sumVals L2 + 1) * (33 * T) := by ring
    _ ≤ sumVals L * (33 * T) := hstep
    _ ≤ sumVals L * (33 * T) + countDeep L * T +
        ((sumVals L + 1) * 4 ^ 31 - Mslots L 0) :=
        le_trans (Nat.le_add_right _ _) (Nat.le_add_right _ _)

theorem measure3_lt_of_count_lt {T : Nat} {L L2 : List (Nat × Nat)}
    (hsum : sumVals L2 = sumVals L)
    (ht : (sumVals L2 + 1) * 4 ^ 31 < T)
    (hcount : countDeep L2 < countDeep L) :
    measure3 T L2 < measure3 T L := by
  rw [hsum] at ht
  have ht2 : (sumVals L + 1) * 4 ^ 31 - Mslots L2 0 < T :=
    lt_of_le_of_lt (Nat.sub_le _ _) ht
  have hc : (countDeep L2 + 1) * T ≤ countDeep L * T :=
    mul_le_mul_right' (by omega) T
  unfold measure3
  rw [hsum]
  calc sumVals L * (33 * T) + countDeep L2 * T +
        ((sumVals L + 1) * 4 ^ 31 - Mslots L2 0)
      < sumVals L * (33 * T) + countDeep L2 * T + T :=
        Nat.add_lt_add_left ht2 _
    _ = sumVals L * (33 * T) + (countDeep L2 + 1) * T := by ring
    _ ≤ sumVals L * (33 * T) + countDeep L * T := Nat.add_le_add_left hc _
    _ ≤ sumVals L * (33 * T) + countDeep L * T +
        ((sumVals L + 1) * 4 ^ 31 - Mslots L 0) := Nat.le_add_right _ _

theorem measure3_lt_of_M_lt {T : Nat} {L L2 : List (Nat × Nat)}
    (hsum : sumVals L2 = sumVals L)
    (hcount : countDeep L2 = countDeep L)
    (hM1 : Mslots L 0 ≤ sumVals L * 4 ^ 31)
    (hM : Mslots L 0 < Mslots L2 0) :
    measure3 T L2 < measure3 T L := by
  unfold measure3
  rw [hsum, hcount]
  have h1 : Mslots L 0 < (sumVals L + 1) * 4 ^ 31 := by
    have h2 : sumVals L * 4 ^ 31 < (sumVals L + 1) * 4 ^ 31 :=
      mul_lt_mul_of_pos_right (by omega) (pow_pos (by omega) 31)
    exact lt_of_le_of_lt hM1 h2
  apply Nat.add_lt_add_left
  generalize (sumVals L + 1) * 4 ^ 31 = a at h1 ⊢
  omega

/-! ## Per-iteration bookkeeping for the reduction loop -/

theorem depth_ge_of_snd_eq {L L2 : List (Nat × Nat)} {k : Nat}
    (hmap : L2.map Prod.snd = L.map Prod.snd)
    (h : ∀ p ∈ L, k ≤ p.2) : ∀ p ∈ L2, k ≤ p.2 := by
  intro p hp
  have h1 : p.2 ∈ L2.map Prod.snd := List.mem_map_of_mem _ hp
  rw [hmap] at h1
  obtain ⟨q, hq, hq2⟩ := List.mem_map.1 h1
  rw [← hq2]
  exact h q hq

theorem specSplitLeaves_cons_big {v d : Nat} (B : List (Nat × Nat))
    (hv : SPLIT_LIMIT ≤ v) :
    specSplitLeaves ((v, d) :: B) = (v / 2, d + 1) :: (v - v / 2, d + 1) :: B := by
  simp [specSplitLeaves, hv]

theorem exists_first_big : ∀ {L : List (Nat × Nat)},
    (∃ p ∈ L, SPLIT_LIMIT ≤ p.1) →
    ∃ A v d B, L = A ++ (v, d) :: B ∧ (∀ p ∈ A, p.1 < SPLIT_LIMIT) ∧
      SPLIT_LIMIT ≤ v := by
  intro L h
  induction L with
  | nil => simp at h
  | cons q rest ih =>
    obtain ⟨v0, d0⟩ := q
    by_cases hq : SPLIT_LIMIT ≤ v0
    · exact ⟨[], v0, d0, rest, rfl, by simp, hq⟩
    · have h2 : ∃ p ∈ rest, SPLIT_LIMIT ≤ p.1 := by
        obtain ⟨p, hp, hp2⟩ := h
        rcases List.mem_cons.1 hp with hp | hp
        · exfalso
          rw [hp] at hp2
          exact hq hp2
        · exact ⟨p, hp, hp2⟩
      obtain ⟨A, v, d, B, hL, hA, hv⟩ := ih h2
      refine ⟨(v0, d0) :: A, v, d, B, by rw [hL]; rfl, ?_, hv⟩
      intro p hp
      rcases List.mem_cons.1 hp with hp | hp
      · rw [hp]
        show v0 < SPLIT_LIMIT
        omega
      · exact hA p hp

/-! ## Termination of the reduction loop -/

theorem reduce_terminates (T : Nat) : ∀ (N : Nat) (n : Node),
    (∀ p ∈ n.leavesD 0, p.2 ≤ 5) →
    (∀ p ∈ n.leavesD 0, 1 ≤ p.2) →
    (sumVals (n.leavesD 0) + 1) * 4 ^ 31 < T →
    measure3 T (n.leavesD 0) ≤ N →
    ∃ fuel m, Node.reduce_fuel fuel n = .done m ∧
      ∀ p ∈ m.leavesD 0, 1 ≤ p.2 := by
  intro N
  induction N using Nat.strong_induction_on with
  | _ N ih =>
  intro n hinv hmin hT hN
  cases hs : splitFirstDeep (n.leavesD 0) with
  | some q =>
    obtain ⟨P, a, d, rest⟩ := q
    obtain ⟨b, S, n2, hrest, hd, hlv, c1, c2, c3⟩ :=
      explode_spec_some n 0 P a d rest (by omega) hinv hs
    subst hrest hd
    obtain ⟨hL, hdP, hPd⟩ := splitFirstDeep_some_facts hs
    have hPd4 : ∀ p ∈ P, p.2 ≤ 4 := by
      intro p hp
      have := hPd p hp
      rw [OPL_eq] at this
      omega
    have hte : ∃ res : ExplodeResult,
        n.try_explode_children 1 = some (n2, res) ∧ res.exploded = true := by
      by_cases hP : P = []
      · exact ⟨_, c1 hP, rfl⟩
      · by_cases hS : S = []
        · exact ⟨_, c2 hP hS, rfl⟩
        · exact ⟨_, c3 hP hS, rfl⟩
    obtain ⟨res, hte, hex⟩ := hte
    have hspec : specExplodeLeaves (n.leavesD 0) =
        addToLast a P ++ (0, 4) :: addToHead b S := by
      simp [specExplodeLeaves, hs]
    have hinv2 : ∀ p ∈ n2.leavesD 0, p.2 ≤ 5 := by
      rw [hlv, ← hspec]
      exact specExplode_depth_le hinv
    have hmin2 : ∀ p ∈ n2.leavesD 0, 1 ≤ p.2 := by
      rw [hlv]
      intro p hp
      rcases List.mem_append.1 hp with hp | hp
      · refine depth_ge_of_snd_eq (addToLast_snd a P) ?_ p hp
        intro x hx
        exact hmin x (by rw [hL]; exact List.mem_append_left _ hx)
      · rcases List.mem_cons.1 hp with hp | hp
        · rw [hp]
          show 1 ≤ 4
          omega
        · refine depth_ge_of_snd_eq (addToHead_snd b S) ?_ p hp
          intro x hx
          exact hmin x (by
            rw [hL]
            exact List.mem_append_right _
              (List.mem_cons_of_mem _ (List.mem_cons_of_mem _ hx)))
    have hsum_le : sumVals (n2.leavesD 0) ≤ sumVals (n.leavesD 0) := by
      rw [hlv, hL, sumVals_append, sumVals_append, sumVals_cons, sumVals_cons,
        sumVals_cons]
      have h1 := sumVals_addToLast_le a P
      have h2 := sumVals_addToHead_le b S
      omega
    have hcount : countDeep (n2.leavesD 0) < countDeep (n.leavesD 0) := by
      rw [hlv, hL, countDeep_append, countDeep_append,
        countDeep_cons_shallow _ (by omega), countDeep_cons_deep _ (by omega),
        countDeep_cons_deep _ (by omega),
        countDeep_eq_of_snd_eq (addToLast_snd a P),
        countDeep_eq_of_snd_eq (addToHead_snd b S),
        countDeep_eq_zero hPd4]
      omega
    have hT2 : (sumVals (n2.leavesD 0) + 1) * 4 ^ 31 < T :=
      lt_of_le_of_lt (mul_le_mul_right' (by omega) _) hT
    have hμ : measure3 T (n2.leavesD 0) < measure3 T (n.leavesD 0) := by
      rcases Nat.lt_or_ge (sumVals (n2.leavesD 0)) (sumVals (n.leavesD 0)) with
        hlt | hge
      · refine measure3_lt_of_sum_lt ?_ hT2 hlt
        calc countDeep (n2.leavesD 0) ≤ (n2.leavesD 0).length :=
              countDeep_le_length _
          _ ≤ widthSum (n2.leavesD 0) := length_le_widthSum _
          _ = 2 ^ (5 - 0) := widthSum_leaves n2 0 hinv2
          _ ≤ 32 := by norm_num
      · exact measure3_lt_of_count_lt (le_antisymm hsum_le hge) hT2 hcount
    obtain ⟨fuel, m, hdone, hmmin⟩ :=
      ih (measure3 T (n2.leavesD 0)) (lt_of_lt_of_le hμ hN) n2 hinv2 hmin2
        hT2 le_rfl
    exact ⟨fuel + 1, m, by rw [rf_step_exploded hte hex]; exact hdone, hmmin⟩
  | none =>
    have hd4 : ∀ p ∈ n.leavesD 0, p.2 ≤ 4 := by
      intro p hp
      have := (splitFirstDeep_eq_none_iff _).1 hs p hp
      rw [OPL_eq] at this
      exact this
    have hte : n.try_explode_children 1 = some (n, ⟨false, none⟩) :=
      explode_spec_none n 0 (by omega) hs
    obtain ⟨n2, bsp, hsplit, hlv2, hbiff, hbid⟩ := split_spec n 0
    cases bsp with
    | false =>
      refine ⟨1, n2, rf_step_done hte rfl hsplit, ?_⟩
      rw [hbid rfl]
      exact hmin
    | true =>
      obtain ⟨A, v, d, B, hL, hA, hv⟩ := exists_first_big (hbiff.1 rfl)
      have hlv2' : n2.leavesD 0 =
          A ++ (v / 2, d + 1) :: (v - v / 2, d + 1) :: B := by
        rw [hlv2, hL, specSplitLeaves_append_small hA,
          specSplitLeaves_cons_big B hv]
      have hAd : ∀ p ∈ A, p.2 ≤ 4 := fun p hp =>
        hd4 p (by rw [hL]; exact List.mem_append_left _ hp)
      have hBd : ∀ p ∈ B, p.2 ≤ 4 := fun p hp =>
        hd4 p (by
          rw [hL]
          exact List.mem_append_right _ (List.mem_cons_of_mem _ hp))
      have hdle : d ≤ 4 := hd4 (v, d) (by
        rw [hL]
        exact List.mem_append_right _ (List.mem_cons_self _ _))
      have hminA : ∀ p ∈ A, 1 ≤ p.2 := fun p hp =>
        hmin p (by rw [hL]; exact List.mem_append_left _ hp)
      have hminB : ∀ p ∈ B, 1 ≤ p.2 := fun p hp =>
        hmin p (by
          rw [hL]
          exact List.mem_append_right _ (List.mem_cons_of_mem _ hp))
      have hmin2 : ∀ p ∈ n2.leavesD 0, 1 ≤ p.2 := by
        rw [hlv2']
        intro p hp
        rcases List.mem_append.1 hp with hp | hp
        · exact hminA p hp
        · rcases List.mem_cons.1 hp with hp | hp
          · rw [hp]
            show 1 ≤ d + 1
            omega
          · rcases List.mem_cons.1 hp with hp | hp
            · rw [hp]
              show 1 ≤ d + 1
              omega
            · exact hminB p hp
      have hsum2 : sumVals (n2.leavesD 0) = sumVals (n.leavesD 0) := by
        rw [hlv2', hL, sumVals_append, sumVals_append, sumVals_cons,
          sumVals_cons, sumVals_cons]
        omega
      have hT2 : (sumVals (n2.leavesD 0) + 1) * 4 ^ 31 < T := by
        rw [hsum2]
        exact hT
      have hM1 : Mslots (n.leavesD 0) 0 ≤ sumVals (n.leavesD 0) * 4 ^ 31 :=
        Mslots_bound _ 0 31 (by rw [widthSum_leaves n 0 hinv]; norm_num)
      by_cases hdeep : d = 4
      · subst hdeep
        have hinv2 : ∀ p ∈ n2.leavesD 0, p.2 ≤ 5 := by
          rw [hlv2']
          intro p hp
          rcases List.mem_append.1 hp with hp | hp
          · have := hAd p hp
            omega
          · rcases List.mem_cons.1 hp with hp | hp
            · rw [hp]
            · rcases List.mem_cons.1 hp with hp | hp
              · rw [hp]
              · have := hBd p hp
                omega
        have hsfdA : splitFirstDeep A = none :=
          (splitFirstDeep_eq_none_iff _).2 fun p hp => by
            have := hAd p hp
            rw [OPL_eq]
            omega
        have hsfd2 : splitFirstDeep (n2.leavesD 0) =
            some (A, v / 2, 4 + 1, (v - v / 2, 4 + 1) :: B) := by
          rw [hlv2', splitFirstDeep_append_none hsfdA,
            splitFirstDeep_cons_deep _ (by rw [OPL_eq])]
          simp
        obtain ⟨b', S', n3, hrest', hd', hlv3, c1, c2, c3⟩ :=
          explode_spec_some n2 0 A (v / 2) (4 + 1) ((v - v / 2, 4 + 1) :: B)
            (by omega) hinv2 hsfd2
        have hb' : (v - v / 2 = b') ∧ B = S' := by
          have h1 := hrest'
          simp only [List.cons.injEq, Prod.mk.injEq] at h1
          exact ⟨h1.1.1, h1.2⟩
        obtain ⟨hb'1, hS'⟩ := hb'
        subst hb'1 hS'
        have hte2 : ∃ res2 : ExplodeResult,
            n2.try_explode_children 1 = some (n3, res2) ∧
              res2.exploded = true := by
          by_cases hAe : A = []
          · exact ⟨_, c1 hAe, rfl⟩
          · by_cases hBe : B = []
            · exact ⟨_, c2 hAe hBe, rfl⟩
            · exact ⟨_, c3 hAe hBe, rfl⟩
        obtain ⟨res2, hte2, hex2⟩ := hte2
        have hd43 : ∀ p ∈ n3.leavesD 0, p.2 ≤ 4 := by
          rw [hlv3]
          intro p hp
          rcases List.mem_append.1 hp with hp | hp
          · exact depth_le_of_snd_eq (addToLast_snd (v / 2) A) hAd p hp
          · rcases List.mem_cons.1 hp with hp | hp
            · rw [hp]
            · exact depth_le_of_snd_eq (addToHead_snd (v - v / 2) B) hBd p hp
        have hinv3 : ∀ p ∈ n3.leavesD 0, p.2 ≤ 5 := fun p hp => by
          have := hd43 p hp
          omega
        have hmin3 : ∀ p ∈ n3.leavesD 0, 1 ≤ p.2 := by
          rw [hlv3]
          intro p hp
          rcases List.mem_append.1 hp with hp | hp
          · exact depth_ge_of_snd_eq (addToLast_snd (v / 2) A) hminA p hp
          · rcases List.mem_cons.1 hp with hp | hp
            · rw [hp]
              show 1 ≤ 4
              omega
            · exact depth_ge_of_snd_eq (addToHead_snd (v - v / 2) B) hminB p hp
        have hsum3_le : sumVals (n3.leavesD 0) ≤ sumVals (n.leavesD 0) := by
          rw [hlv3, hL, sumVals_append, sumVals_append, sumVals_cons,
            sumVals_cons]
          have h1 := sumVals_addToLast_le (v / 2) A
          have h2 := sumVals_addToHead_le (v - v / 2) B
          omega
        have hT3 : (sumVals (n3.leavesD 0) + 1) * 4 ^ 31 < T :=
          lt_of_le_of_lt (mul_le_mul_right' (by omega) _) hT
        have hμ : measure3 T (n3.leavesD 0) < measure3 T (n.leavesD 0) := by
          rcases Nat.lt_or_ge (sumVals (n3.leavesD 0)) (sumVals (n.leavesD 0))
            with hlt | hge
          · refine measure3_lt_of_sum_lt ?_ hT3 hlt
            calc countDeep (n3.leavesD 0) ≤ (n3.leavesD 0).length :=
                  countDeep_le_length _
              _ ≤ widthSum (n3.leavesD 0) := length_le_widthSum _
              _ = 2 ^ (5 - 0) := widthSum_leaves n3 0 hinv3
              _ ≤ 32 := by norm_num
          · have heq : sumVals (n3.leavesD 0) = sumVals (n.leavesD 0) :=
              le_antisymm hsum3_le hge
            have hBne : B ≠ [] := by
              intro hBe
              subst hBe
              rw [hlv3, hL] at heq
              rw [show addToHead (v - v / 2) ([] : List (Nat × Nat)) = []
                from rfl] at heq
              rw [sumVals_append, sumVals_append, sumVals_cons,
                sumVals_cons] at heq
              have h0 : sumVals ([] : List (Nat × Nat)) = 0 := rfl
              rw [h0] at heq
              have h1 := sumVals_addToLast_le (v / 2) A
              rw [SL_eq] at hv
              omega
            have hcount1 : countDeep (n.leavesD 0) = 0 := countDeep_eq_zero hd4
            have hcount3 : countDeep (n3.leavesD 0) = 0 :=
              countDeep_eq_zero hd43
            have hMlt : Mslots (n.leavesD 0) 0 < Mslots (n3.leavesD 0) 0 := by
              rw [hlv3, hL]
              exact Mslots_explode_deep_lt hv hBne
            exact measure3_lt_of_M_lt heq (by rw [hcount1, hcount3]) hM1 hMlt
        obtain ⟨fuel, m, hdone, hmmin⟩ :=
          ih (measure3 T (n3.leavesD 0)) (lt_of_lt_of_le hμ hN) n3 hinv3
            hmin3 hT3 le_rfl
        refine ⟨fuel + 1 + 1, m, ?_, hmmin⟩
        rw [rf_step_split hte rfl hsplit, rf_step_exploded hte2 hex2]
        exact hdone
      · have hd43 : ∀ p ∈ n2.leavesD 0, p.2 ≤ 4 := by
          rw [hlv2']
          intro p hp
          rcases List.mem_append.1 hp with hp | hp
          · exact hAd p hp
          · rcases List.mem_cons.1 hp with hp | hp
            · rw [hp]
              show d + 1 ≤ 4
              omega
            · rcases List.mem_cons.1 hp with hp | hp
              · rw [hp]
                show d + 1 ≤ 4
                omega
              · exact hBd p hp
        have hinv2 : ∀ p ∈ n2.leavesD 0, p.2 ≤ 5 := fun p hp => by
          have := hd43 p hp
          omega
        have hcount1 : countDeep (n.leavesD 0) = 0 := countDeep_eq_zero hd4
        have hcount2 : countDeep (n2.leavesD 0) = 0 := countDeep_eq_zero hd43
        have hMlt : Mslots (n.leavesD 0) 0 < Mslots (n2.leavesD 0) 0 := by
          rw [hlv2', hL]
          exact Mslots_specSplit_lt hv (by omega)
        have hμ : measure3 T (n2.leavesD 0) < measure3 T (n.leavesD 0) :=
          measure3_lt_of_M_lt hsum2 (by rw [hcount1, hcount2]) hM1 hMlt
        obtain ⟨fuel, m, hdone, hmmin⟩ :=
          ih (measure3 T (n2.leavesD 0)) (lt_of_lt_of_le hμ hN) n2 hinv2
            hmin2 hT2 le_rfl
        refine ⟨fuel + 1, m, ?_, hmmin⟩
        rw [rf_step_split hte rfl hsplit]
        exact hdone

theorem pair_of_min_depth {m : Node}
    (h : ∀ p ∈ m.leavesD 0, 1 ≤ p.2) : ∃ l r, m = Node.Pair l r := by
  cases m with
  | Value v =>
    exfalso
    have h1 := h (v, 0) (by simp [Node.leavesD])
    simp at h1
  | Pair l r => exact ⟨l, r, rfl⟩

/-- C4: for every pair of input trees whose combined root pair satisfies
the code's explode well-formedness assumption (every pair nested at or
beyond the outer-pair limit has two `Value` children), the reduction
loop of `add_numbers` — repeatedly calling the explode pass and, when no
explode occurred, the split pass, until both report nothing to do —
terminates after finitely many iterations: some finite fuel makes the
fuelled loop reach its fixed point and return a result. -/
theorem c4_termination (a b : SnailfishNumber)
    (h : (Node.Pair a.toNode b.toNode).explode_safe = true) :
    ∃ fuel res, add_numbers fuel a b = some res := by
  have hinv : ∀ p ∈ (Node.Pair a.toNode b.toNode).leavesD 0, p.2 ≤ 5 :=
    (explode_safe_iff_leaves _).1 h
  have hmin : ∀ p ∈ (Node.Pair a.toNode b.toNode).leavesD 0, 1 ≤ p.2 := by
    intro p hp
    rw [show (Node.Pair a.toNode b.toNode).leavesD 0 =
      a.toNode.leavesD 1 ++ b.toNode.leavesD 1 from rfl] at hp
    rcases List.mem_append.1 hp with hp | hp
    · exact leavesD_depth_ge _ _ p hp
    · exact leavesD_depth_ge _ _ p hp
  obtain ⟨fuel, m, hdone, hmmin⟩ :=
    reduce_terminates
      ((sumVals ((Node.Pair a.toNode b.toNode).leavesD 0) + 1) * 4 ^ 31 + 1)
      (measure3
        ((sumVals ((Node.Pair a.toNode b.toNode).leavesD 0) + 1) * 4 ^ 31 + 1)
        ((Node.Pair a.toNode b.toNode).leavesD 0))
      (Node.Pair a.toNode b.toNode) hinv hmin (Nat.lt_succ_self _) le_rfl
  obtain ⟨l, r, hm⟩ := pair_of_min_depth hmmin
  refine ⟨fuel, ⟨l, r⟩, ?_⟩
  unfold add_numbers
  rw [hdone, hm]

/-- C4 witness: the explode-safety hypothesis holds for the combined
pair of `[1,2]` and `[3,4]`, and the loop terminates on it. -/
theorem c4_termination_witness :
    (Node.Pair (SnailfishNumber.toNode ⟨.Value 1, .Value 2⟩)
        (SnailfishNumber.toNode ⟨.Value 3, .Value 4⟩)).explode_safe = true ∧
      ∃ fuel res,
        add_numbers fuel ⟨.Value 1, .Value 2⟩ ⟨.Value 3, .Value 4⟩ =
          some res :=
  ⟨by decide, c4_termination _ _ (by decide)⟩

/-- C1: combining the parsed trees of `[[[[4,3],4],4],[7,[[8,4],9]]]` and
`[1,1]` with `add_numbers` (construct the new root pair, then reduce to a
fixed point — reached here after 5 rewrites, so any fuel `≥ 6` suffices
and yields the same fixed point) gives exactly the parsed tree of
`[[[[0,7],4],[[7,8],[6,0]]],[8,1]]`. -/
theorem c1_concrete_addition :
    parse_snailfish_number 9 "[[[[4,3],4],4],[7,[[8,4],9]]]".toList =
      some exC1_left ∧
    parse_snailfish_number 9 "[1,1]".toList = some exC1_right ∧
    parse_snailfish_number 9 "[[[[0,7],4],[[7,8],[6,0]]],[8,1]]".toList =
      some exC1_sum ∧
    ∀ fuel : Nat, 6 ≤ fuel →
      add_numbers fuel exC1_left exC1_right = some exC1_sum := by
  refine ⟨by decide, by decide, by decide, ?_⟩
  intro fuel hf
  exact add_numbers_mono hf _ _ _ (by decide)

/-- C1 witness: the theorem applied at fuel 6. -/
theorem c1_concrete_addition_witness :
    add_numbers 6 exC1_left exC1_right = some exC1_sum :=
  c1_concrete_addition.2.2.2 6 (by omega)

/-- C2: on every tree whose maximally-deep pairs all have two `Value`
children (`explode_safe`), `try_explode_children 1` performs exactly the
explode rewrite of the spec: the leaf sequence of the result is
`specExplodeLeaves` of the input's leaf sequence — the first
(left-to-right) deep pair is replaced by a `0` one level up, its left
value is added to the nearest leaf strictly to the left (dropped when
none exists), its right value to the nearest leaf strictly to the right
(dropped when none exists), and nothing else changes — and `exploded` is
reported iff such a pair exists.  A `Value` node absorbs a carry; a
`Pair` routes a right-bound carry into its left child and a left-bound
carry into its right child.  One explode step on `[[[[[9,8],1],2],3],4]`
yields `[[[[0,9],2],3],4]` (the left 9 is carried out and dropped, the
right 8 is absorbed by the 1). -/
theorem c2_explode_spec :
    (∀ n : Node, n.explode_safe = true →
      ∃ n2 res, n.try_explode_children 1 = some (n2, res) ∧
        n2.leavesD 0 = specExplodeLeaves (n.leavesD 0) ∧
        (res.exploded = true ↔ splitFirstDeep (n.leavesD 0) ≠ none)) ∧
    (∀ (v : Nat) (c : ExplodeCarryValue),
      (Node.Value v).accept_carry_value c = .Value (v + c.value)) ∧
    (∀ (l r : Node) (x : Nat),
      (Node.Pair l r).accept_carry_value ⟨.Right, x⟩ =
        .Pair (l.accept_carry_value ⟨.Right, x⟩) r) ∧
    (∀ (l r : Node) (x : Nat),
      (Node.Pair l r).accept_carry_value ⟨.Left, x⟩ =
        .Pair l (r.accept_carry_value ⟨.Left, x⟩)) ∧
    exC2.try_explode_children 1 =
      some (exC2_result, ⟨true, some ⟨.Left, 9⟩⟩) := by
  refine ⟨?_, fun v c => rfl, fun l r x => rfl, fun l r x => rfl, by decide⟩
  intro n hsafe
  exact explode_top n ((explode_safe_iff_leaves n).1 hsafe)

/-- C2 witness: the theorem applied to `[[[[[9,8],1],2],3],4]`. -/
theorem c2_explode_spec_witness :
    ∃ n2 res, exC2.try_explode_children 1 = some (n2, res) ∧
      n2.leavesD 0 = specExplodeLeaves (exC2.leavesD 0) ∧
      (res.exploded = true ↔ splitFirstDeep (exC2.leavesD 0) ≠ none) :=
  c2_explode_spec.1 exC2 (by decide)

/-- C3: `try_split_children` performs exactly the split rewrite of the
spec: the leaf sequence of the result is `specSplitLeaves` of the
input's — the first (left-to-right) leaf `v ≥ 10` becomes the pair
`(v / 2, v - v / 2)` one level deeper and every other leaf is unchanged
— `true` is returned iff some leaf is `≥ 10`, and on `false` the tree is
returned unchanged.  Splitting the value 11 gives `Pair(5,6)` and 13
gives `Pair(6,7)`; after a successful split the reduction loop starts a
new iteration, which re-checks explode before any further split. -/
theorem c3_split_spec :
    (∀ n : Node, ∃ n2 b, n.try_split_children = (n2, b) ∧
      n2.leavesD 0 = specSplitLeaves (n.leavesD 0) ∧
      (b = true ↔ ∃ p ∈ n.leavesD 0, SPLIT_LIMIT ≤ p.1) ∧
      (b = false → n2 = n)) ∧
    (Node.Value 11).try_split_children =
      (.Pair (.Value 5) (.Value 6), true) ∧
    (Node.Value 13).try_split_children =
      (.Pair (.Value 6) (.Value 7), true) ∧
    (∀ (fuel : Nat) (n n1 n2 : Node) (res : ExplodeResult),
      n.try_explode_children 1 = some (n1, res) → res.exploded = false →
      n1.try_split_children = (n2, true) →
      Node.reduce_fuel (fuel + 1) n = Node.reduce_fuel fuel n2) := by
  refine ⟨fun n => split_spec n 0, by decide, by decide, ?_⟩
  intro fuel n n1 n2 res h1 h2 h3
  exact rf_step_split h1 h2 h3

/-- C3 witness: after the split of `[10,0]` into `[[5,5],0]` the loop
runs another full iteration. -/
theorem c3_split_spec_witness :
    Node.reduce_fuel 1 (.Pair (.Value 10) (.Value 0)) =
      Node.reduce_fuel 0 (.Pair (.Pair (.Value 5) (.Value 5)) (.Value 0)) :=
  c3_split_spec.2.2.2 0 (.Pair (.Value 10) (.Value 0))
    (.Pair (.Value 10) (.Value 0))
    (.Pair (.Pair (.Value 5) (.Value 5)) (.Value 0)) ⟨false, none⟩
    (by decide) (by decide) (by decide)

/-- C6: `magnitude` is a total function of the tree defined by
`magnitude (Value v) = v` and
`magnitude (Pair l r) = 3 * magnitude l + 2 * magnitude r`; the
magnitude of `[[1,2],[[3,4],5]]` is 143. -/
theorem c6_magnitude :
    (∀ v : Nat, (Node.Value v).magnitude = v) ∧
    (∀ l r : Node,
      (Node.Pair l r).magnitude = 3 * l.magnitude + 2 * r.magnitude) ∧
    exC6.magnitude = 143 := by
  refine ⟨fun v => rfl, fun l r => ?_, by decide⟩
  show l.magnitude * 3 + r.magnitude * 2 = 3 * l.magnitude + 2 * r.magnitude
  ring

/-- C7: reduction is idempotent — on a reduced tree (no pair at
outer-pair-count `≥ 4` has a pair child, and every leaf is
`< SPLIT_LIMIT`), `try_explode_children 1` reports no explosion and no
carry, `try_split_children` reports `false`, and both return the tree
unchanged. -/
theorem c7_reduced_fixed_point : ∀ n : Node, n.is_reduced = true →
    n.try_explode_children 1 = some (n, ⟨false, none⟩) ∧
    n.try_split_children = (n, false) := by
  intro n hred
  simp only [Node.is_reduced, Bool.and_eq_true] at hred
  obtain ⟨hpf, hvl⟩ := hred
  have hdep := (pair_free_iff_leaves n).1 hpf
  have hnone : splitFirstDeep (n.leavesD 0) = none :=
    (splitFirstDeep_eq_none_iff _).2 (fun p hp => by
      rw [OPL_eq]
      exact hdep p hp)
  constructor
  · exact explode_spec_none n 0 (by omega) hnone
  · obtain ⟨n2, b, hts, _, hiff, hid⟩ := split_spec n 0
    have hvals := (values_lt_iff_leaves n SPLIT_LIMIT 0).1 hvl
    cases b with
    | false => rw [hts, hid rfl]
    | true =>
      exfalso
      obtain ⟨p, hp, hbig⟩ := hiff.1 rfl
      have := hvals p hp
      omega

/-- C7 witness: the theorem applied to the reduced tree `[1,2]`. -/
theorem c7_reduced_fixed_point_witness :
    (Node.Pair (.Value 1) (.Value 2)).try_explode_children 1 =
      some (.Pair (.Value 1) (.Value 2), ⟨false, none⟩) ∧
    (Node.Pair (.Value 1) (.Value 2)).try_split_children =
      (.Pair (.Value 1) (.Value 2), false) :=
  c7_reduced_fixed_point (.Pair (.Value 1) (.Value 2)) (by decide)

/-- C5: for reduced inputs, any tree returned by `add_numbers` satisfies
the depth invariant — no pair reachable at outer-pair-count `≥ 4` has a
pair child (`pair_free`), equivalently every leaf lies at most 4
pair-levels below the root. -/
theorem c5_depth_invariant : ∀ (a b res : SnailfishNumber) (fuel : Nat),
    a.toNode.is_reduced = true → b.toNode.is_reduced = true →
    add_numbers fuel a b = some res →
    res.toNode.pair_free = true ∧ ∀ p ∈ res.toNode.leavesD 0, p.2 ≤ 4 := by
  intro a b res fuel hra hrb hadd
  have hda := (pair_free_iff_leaves a.toNode).1 (by
    simp only [Node.is_reduced, Bool.and_eq_true] at hra
    exact hra.1)
  have hdb := (pair_free_iff_leaves b.toNode).1 (by
    simp only [Node.is_reduced, Bool.and_eq_true] at hrb
    exact hrb.1)
  have hinv : ∀ p ∈ (Node.Pair a.toNode b.toNode).leavesD 0, p.2 ≤ 5 := by
    intro p hp
    simp only [Node.leavesD] at hp
    rcases List.mem_append.1 hp with hp | hp
    · have := leavesD_le_shift hda p hp
      omega
    · have := leavesD_le_shift hdb p hp
      omega
  cases hred : Node.reduce_fuel fuel (.Pair a.toNode b.toNode) with
  | done m =>
    cases m with
    | Value v => simp [add_numbers, hred] at hadd
    | Pair l r =>
      simp only [add_numbers, hred, Option.some.injEq] at hadd
      obtain ⟨hd4, _⟩ := reduce_fuel_done_inv fuel _ _ hinv hred
      have hres : res.toNode = Node.Pair l r := by
        rw [← hadd]
        rfl
      refine ⟨?_, ?_⟩
      · rw [hres]
        exact (pair_free_iff_leaves _).2 hd4
      · rw [hres]
        exact hd4
  | panicked => simp [add_numbers, hred] at hadd
  | fuel_out => simp [add_numbers, hred] at hadd

/-- C5 witness: the theorem applied to `[1,2] + [3,4]`. -/
theorem c5_depth_invariant_witness :
    (SnailfishNumber.toNode ⟨.Pair (.Value 1) (.Value 2),
        .Pair (.Value 3) (.Value 4)⟩).pair_free = true ∧
    ∀ p ∈ (SnailfishNumber.toNode ⟨.Pair (.Value 1) (.Value 2),
        .Pair (.Value 3) (.Value 4)⟩).leavesD 0, p.2 ≤ 4 :=
  c5_depth_invariant ⟨.Value 1, .Value 2⟩ ⟨.Value 3, .Value 4⟩
    ⟨.Pair (.Value 1) (.Value 2), .Pair (.Value 3) (.Value 4)⟩ 1
    (by decide) (by decide) (by decide)

/-! ## Decimal printing and parsing of leaf values -/

theorem natDigitsAux_lt10 : ∀ (fuel v : Nat), ∀ d ∈ natDigitsAux fuel v,
    d < 10 := by
  intro fuel
  induction fuel with
  | zero => intro v d hd; simp [natDigitsAux] at hd
  | succ fuel ih =>
    intro v d hd
    by_cases hv : v = 0
    · simp [natDigitsAux, hv] at hd
    · simp only [natDigitsAux, if_neg hv] at hd
      rcases List.mem_cons.1 hd with hd | hd
      · rw [hd]; omega
      · exact ih _ d hd

theorem natDigitsAux_val : ∀ (fuel v : Nat), v ≤ fuel →
    valLSD (natDigitsAux fuel v) = v := by
  intro fuel
  induction fuel with
  | zero =>
    intro v hv
    interval_cases v
    simp [natDigitsAux, valLSD]
  | succ fuel ih =>
    intro v hv
    by_cases h0 : v = 0
    · simp [natDigitsAux, h0, valLSD]
    · have hdiv : v / 10 ≤ fuel := by
        have := Nat.div_lt_self (Nat.pos_of_ne_zero h0) (by omega : 1 < 10)
        omega
      simp only [natDigitsAux, if_neg h0, valLSD, ih _ hdiv]
      omega

theorem natDigitsAux_ne_nil {fuel v : Nat} (h0 : v ≠ 0) (hf : v ≤ fuel) :
    natDigitsAux fuel v ≠ [] := by
  cases fuel with
  | zero => omega
  | succ fuel => simp [natDigitsAux, h0]

theorem digitChar_facts {d : Nat} (h : d < 10) :
    (digitChar d).isDigit = true ∧ (digitChar d).toNat - 48 = d ∧
      digitChar d ≠ ',' ∧ digitChar d ≠ '[' ∧ digitChar d ≠ ']' ∧
      digitChar d ≠ '+' := by
  interval_cases d <;> exact ⟨by decide, by decide, by decide, by decide,
    by decide, by decide⟩

theorem natChars_mem_facts (v : Nat) : ∀ c ∈ natChars v,
    c.isDigit = true ∧ c ≠ ',' ∧ c ≠ '[' ∧ c ≠ ']' ∧ c ≠ '+' := by
  intro c hc
  by_cases h0 : v = 0
  · subst h0
    simp [natChars] at hc
    subst hc
    exact ⟨by decide, by decide, by decide, by decide, by decide⟩
  · simp only [natChars, if_neg h0] at hc
    obtain ⟨d, hd, hdc⟩ := List.mem_map.1 hc
    have hd10 : d < 10 := natDigitsAux_lt10 v v d (List.mem_reverse.1 hd)
    obtain ⟨f1, _, f3, f4, f5, f6⟩ := digitChar_facts hd10
    rw [← hdc]
    exact ⟨f1, f3, f4, f5, f6⟩

theorem natChars_ne_nil (v : Nat) : natChars v ≠ [] := by
  by_cases h0 : v = 0
  · simp [natChars, h0]
  · simp only [natChars, if_neg h0]
    intro h
    have h2 : natDigitsAux v v = [] := by
      simpa [List.map_eq_nil_iff, List.reverse_eq_nil_iff] using h
    exact natDigitsAux_ne_nil h0 le_rfl h2

theorem foldl_digits : ∀ (ds : List Nat), (∀ d ∈ ds, d < 10) →
    ∀ acc : Nat,
    List.foldl (fun a c => a * 10 + (c.toNat - 48)) acc
      (ds.reverse.map digitChar) = acc * 10 ^ ds.length + valLSD ds := by
  intro ds
  induction ds with
  | nil => intro _ acc; simp [valLSD]
  | cons d ds ih =>
    intro hd acc
    have hd10 : d < 10 := hd d (List.mem_cons_self _ _)
    obtain ⟨_, f2, _⟩ := digitChar_facts hd10
    simp only [List.reverse_cons, List.map_append, List.foldl_append,
      List.map_cons, List.map_nil, List.foldl_cons, List.foldl_nil]
    rw [ih (fun q hq => hd q (List.mem_cons_of_mem _ hq)) acc]
    simp only [valLSD, List.length_cons, f2]
    ring

theorem parse_u32_natChars {v : Nat} (hv : v < 2 ^ 32) :
    parse_u32 (natChars v) = some v := by
  by_cases h0 : v = 0
  · subst h0; decide
  · have hne := natChars_ne_nil v
    have hmem := natChars_mem_facts v
    have hhead : ¬ (natChars v).head? = some '+' := by
      cases hnc : natChars v with
      | nil => exact absurd hnc hne
      | cons c cs =>
        have := (hmem c (by rw [hnc]; exact List.mem_cons_self _ _)).2.2.2.2
        simp [this]
    have hall : (natChars v).all Char.isDigit = true :=
      List.all_eq_true.2 (fun c hc => (hmem c hc).1)
    have hfold : (natChars v).foldl (fun a c => a * 10 + (c.toNat - 48)) 0
        = v := by
      conv_lhs => rw [natChars, if_neg h0]
      rw [foldl_digits _ (natDigitsAux_lt10 v v) 0,
        natDigitsAux_val v v le_rfl]
      simp
    simp only [parse_u32, if_neg hhead, if_neg hne, hall, if_pos rfl,
      hfold, if_pos hv, if_true]

/-! ## The comma scanner passes over printed subtrees -/

theorem fc_step_comma_zero (xs : List Char) (idx : Nat) :
    find_comma_from (',' :: xs) 0 idx = some idx := by
  simp [find_comma_from]

theorem fc_step_comma_pos (xs : List Char) {stack : Nat} (hs : stack ≠ 0)
    (idx : Nat) :
    find_comma_from (',' :: xs) stack idx =
      find_comma_from xs stack (idx + 1) := by
  simp only [find_comma_from]
  rw [if_neg (fun hh => hs hh.2), if_neg (by decide),
    if_neg (fun hh => absurd hh.1 (by decide)), if_neg (by decide)]

theorem fc_step_lbracket (xs : List Char) (stack idx : Nat) :
    find_comma_from ('[' :: xs) stack idx =
      find_comma_from xs (stack + 1) (idx + 1) := by
  simp only [find_comma_from]
  rw [if_neg (fun hh => absurd hh.1 (by decide)), if_pos (by decide)]

theorem fc_step_rbracket_pos (xs : List Char) {stack : Nat} (hs : stack ≠ 0)
    (idx : Nat) :
    find_comma_from (']' :: xs) stack idx =
      find_comma_from xs (stack - 1) (idx + 1) := by
  simp only [find_comma_from]
  rw [if_neg (fun hh => absurd hh.1 (by decide)), if_neg (by decide),
    if_neg (fun hh => hs hh.2), if_pos (by decide)]

theorem fc_step_other {c : Char} (hc : c ≠ ',' ∧ c ≠ '[' ∧ c ≠ ']')
    (xs : List Char) (stack idx : Nat) :
    find_comma_from (c :: xs) stack idx =
      find_comma_from xs stack (idx + 1) := by
  simp only [find_comma_from]
  rw [if_neg (fun hh => hc.1 hh.1), if_neg hc.2.1,
    if_neg (fun hh => hc.2.2 hh.1), if_neg hc.2.2]

theorem fc_skip : ∀ (cs : List Char),
    (∀ c ∈ cs, c ≠ ',' ∧ c ≠ '[' ∧ c ≠ ']') →
    ∀ (rest : List Char) (stack idx : Nat),
    find_comma_from (cs ++ rest) stack idx =
      find_comma_from rest stack (idx + cs.length) := by
  intro cs
  induction cs with
  | nil => intro _ rest stack idx; simp
  | cons c cs ih =>
    intro hc rest stack idx
    rw [List.cons_append,
      fc_step_other (hc c (List.mem_cons_self _ _)) _ stack idx,
      ih (fun q hq => hc q (List.mem_cons_of_mem _ hq)) rest stack (idx + 1)]
    have harith : idx + 1 + cs.length = idx + (c :: cs).length := by
      rw [List.length_cons]
      omega
    rw [harith]

theorem fc_canonical (n : Node) : ∀ (rest : List Char) (stack idx : Nat),
    find_comma_from (n.canonical_fmt ++ rest) stack idx =
      find_comma_from rest stack (idx + n.canonical_fmt.length) := by
  induction n with
  | Value v =>
    intro rest stack idx
    exact fc_skip (natChars v)
      (fun c hc => ⟨(natChars_mem_facts v c hc).2.1,
        (natChars_mem_facts v c hc).2.2.1,
        (natChars_mem_facts v c hc).2.2.2.1⟩) rest stack idx
  | Pair l r ihl ihr =>
    intro rest stack idx
    have hassoc : (Node.Pair l r).canonical_fmt ++ rest =
        '[' :: (l.canonical_fmt ++
          (',' :: (r.canonical_fmt ++ (']' :: rest)))) := by
      simp [Node.canonical_fmt]
    rw [hassoc, fc_step_lbracket, ihl, fc_step_comma_pos _ (by omega), ihr,
      fc_step_rbracket_pos _ (by omega)]
    have h1 : stack + 1 - 1 = stack := by omega
    have h2 : idx + 1 + l.canonical_fmt.length + 1 + r.canonical_fmt.length
        + 1 = idx + (Node.Pair l r).canonical_fmt.length := by
      simp only [Node.canonical_fmt, List.length_cons, List.length_append,
        List.length_nil]
      omega
    rw [h1, h2]

/-! ## Parsing is a left inverse of the canonical printer -/

theorem parse_node_canonical (n : Node) : ∀ fuel : Nat, n.pairDepth < fuel →
    n.values_lt (2 ^ 32) = true →
    parse_node fuel n.canonical_fmt = some n := by
  induction n with
  | Value v =>
    intro fuel hf hv
    cases fuel with
    | zero => simp [Node.pairDepth] at hf
    | succ f =>
      have hne := natChars_ne_nil v
      have hhead : (natChars v).head? ≠ some '[' := by
        cases hnc : natChars v with
        | nil => exact absurd hnc hne
        | cons c cs =>
          have hcf := (natChars_mem_facts v c
            (by rw [hnc]; exact List.mem_cons_self _ _)).2.2.1
          simp [hcf]
      have hvlt : v < 2 ^ 32 := by
        simpa [Node.values_lt] using hv
      show parse_node (f + 1) (natChars v) = some (Node.Value v)
      simp only [parse_node]
      rw [if_pos hhead, parse_u32_natChars hvlt]
      rfl
  | Pair l r ihl ihr =>
    intro fuel hf hv
    cases fuel with
    | zero => omega
    | succ f =>
      simp only [Node.values_lt, Bool.and_eq_true] at hv
      have hfl : l.pairDepth < f := by
        simp only [Node.pairDepth] at hf
        omega
      have hfr : r.pairDepth < f := by
        simp only [Node.pairDepth] at hf
        omega
      have hfmt : (Node.Pair l r).canonical_fmt =
          '[' :: ((l.canonical_fmt ++ ',' :: r.canonical_fmt) ++ [']']) := by
        simp [Node.canonical_fmt]
      rw [hfmt]
      simp only [parse_node, List.head?_cons]
      rw [if_neg (by simp)]
      rw [if_neg (by
        simp only [List.length_cons, List.length_append, List.length_nil]
        omega)]
      have hinner : (('[' ::
          ((l.canonical_fmt ++ ',' :: r.canonical_fmt) ++ [']'])).drop
            1).dropLast = l.canonical_fmt ++ ',' :: r.canonical_fmt := by
        simp only [List.drop_succ_cons, List.drop_zero]
        exact List.dropLast_concat
      rw [hinner]
      have hfc : find_comma (l.canonical_fmt ++ ',' :: r.canonical_fmt) =
          some l.canonical_fmt.length := by
        rw [find_comma, fc_canonical l (',' :: r.canonical_fmt) 0 0,
          fc_step_comma_zero]
        simp
      have htake : (l.canonical_fmt ++ ',' :: r.canonical_fmt).take
          l.canonical_fmt.length = l.canonical_fmt := List.take_left _ _
      have hdrop : (l.canonical_fmt ++ ',' :: r.canonical_fmt).drop
          (l.canonical_fmt.length + 1) = r.canonical_fmt := by
        rw [show l.canonical_fmt ++ ',' :: r.canonical_fmt =
          (l.canonical_fmt ++ [',']) ++ r.canonical_fmt by simp]
        exact List.drop_left' (by simp)
      simp only [hfc, htake, hdrop, ihl f hfl hv.1, ihr f hfr hv.2]

theorem parse_canonical (t : SnailfishNumber) (fuel : Nat)
    (hf : t.toNode.pairDepth ≤ fuel)
    (hv : t.toNode.values_lt (2 ^ 32) = true) :
    parse_snailfish_number fuel t.canonical_fmt = some t := by
  obtain ⟨l, r⟩ := t
  simp only [SnailfishNumber.canonical_fmt, SnailfishNumber.toNode,
    Node.pairDepth] at hf hv ⊢
  simp only [Node.values_lt, Bool.and_eq_true] at hv
  have hfmt : (Node.Pair l r).canonical_fmt =
      '[' :: ((l.canonical_fmt ++ ',' :: r.canonical_fmt) ++ [']']) := by
    simp [Node.canonical_fmt]
  rw [hfmt]
  have hlen : ¬ ('[' ::
      ((l.canonical_fmt ++ ',' :: r.canonical_fmt) ++ [']'])).length < 2 := by
    simp only [List.length_cons, List.length_append, List.length_nil]
    omega
  rw [parse_snailfish_number, if_neg hlen]
  have hinner : (('[' ::
      ((l.canonical_fmt ++ ',' :: r.canonical_fmt) ++ [']'])).drop
        1).dropLast = l.canonical_fmt ++ ',' :: r.canonical_fmt := by
    simp only [List.drop_succ_cons, List.drop_zero]
    exact List.dropLast_concat
  rw [hinner]
  have hfc : find_comma (l.canonical_fmt ++ ',' :: r.canonical_fmt) =
      some l.canonical_fmt.length := by
    rw [find_comma, fc_canonical l (',' :: r.canonical_fmt) 0 0,
      fc_step_comma_zero]
    simp
  have htake : (l.canonical_fmt ++ ',' :: r.canonical_fmt).take
      l.canonical_fmt.length = l.canonical_fmt := List.take_left _ _
  have hdrop : (l.canonical_fmt ++ ',' :: r.canonical_fmt).drop
      (l.canonical_fmt.length + 1) = r.canonical_fmt := by
    rw [show l.canonical_fmt ++ ',' :: r.canonical_fmt =
      (l.canonical_fmt ++ [',']) ++ r.canonical_fmt by simp]
    exact List.drop_left' (by simp)
  have hmaxl : l.pairDepth < fuel := by
    have := le_max_left l.pairDepth r.pairDepth
    omega
  have hmaxr : r.pairDepth < fuel := by
    have := le_max_right l.pairDepth r.pairDepth
    omega
  simp only [parse_pair, hfc, htake, hdrop,
    parse_node_canonical l fuel hmaxl hv.1,
    parse_node_canonical r fuel hmaxr hv.2]

/-- C8 counterexample: the program's Debug formatter writes spaces
around each comma (`[1 , 2]`; the number wrapper prepends `Number `),
and Rust's `u32` parser rejects `"1 "`, so feeding the Debug output of
the tree `[1,2]` back through the parser fails instead of returning the
tree — for every parser fuel. -/
theorem c8_debug_print_not_reparseable :
    (SnailfishNumber.mk (.Value 1) (.Value 2)).debug_fmt =
      "Number [1 , 2]".toList ∧
    (Node.Pair (.Value 1) (.Value 2)).debug_fmt = "[1 , 2]".toList ∧
    (∀ fuel : Nat, parse_snailfish_number fuel
      (SnailfishNumber.mk (.Value 1) (.Value 2)).debug_fmt = none) ∧
    (∀ fuel : Nat, parse_snailfish_number fuel
      (Node.Pair (.Value 1) (.Value 2)).debug_fmt ≠
        some ⟨.Value 1, .Value 2⟩) := by
  refine ⟨by decide, by decide, ?_, ?_⟩
  · intro fuel
    rw [show (SnailfishNumber.mk (.Value 1) (.Value 2)).debug_fmt =
      "Number [1 , 2]".toList from by decide]
    simp only [parse_snailfish_number]
    rw [if_neg (by decide)]
    simp only [parse_pair]
    rw [show find_comma ((("Number [1 , 2]".toList).drop 1).dropLast) =
      none from by decide]
  · intro fuel h
    have hpn1 : parse_node fuel ['1', ' '] = none := by
      cases fuel with
      | zero => rfl
      | succ f2 =>
        simp only [parse_node]
        rw [if_pos (by decide),
          show parse_u32 ['1', ' '] = none from by decide]
        rfl
    rw [show (Node.Pair (.Value 1) (.Value 2)).debug_fmt =
      ['[', '1', ' ', ',', ' ', '2', ']'] from by decide] at h
    simp only [parse_snailfish_number] at h
    rw [if_neg (by decide)] at h
    simp only [parse_pair] at h
    rw [show find_comma
        ((['[', '1', ' ', ',', ' ', '2', ']'].drop 1).dropLast) =
      some 2 from by decide] at h
    simp only [show
      ((['[', '1', ' ', ',', ' ', '2', ']'].drop 1).dropLast).take 2 =
      ['1', ' '] from by decide, hpn1] at h
    simp at h

/-- C8 (amended): parsing is a left inverse of the canonical printer of
the input grammar (brackets and commas, no spaces): for every tree whose
leaf values fit in a `u32` and any parser fuel at least its nesting
depth, printing canonically and re-parsing returns the identical tree.
The program's own Debug formatter differs from this printer only by the
spaces it puts around each comma — and exactly because of those spaces
its output is not re-parseable (see the counterexample). -/
theorem c8_parse_left_inverse_of_printer :
    ∀ (t : SnailfishNumber) (fuel : Nat),
      t.toNode.pairDepth ≤ fuel → t.toNode.values_lt (2 ^ 32) = true →
      parse_snailfish_number fuel t.canonical_fmt = some t :=
  parse_canonical

/-- C8 witness: round trip of `[[1,2],[[3,4],5]]` through the canonical
printer. -/
theorem c8_parse_left_inverse_of_printer_witness :
    parse_snailfish_number 3 exC6.canonical_fmt = some exC6 :=
  c8_parse_left_inverse_of_printer exC6 3 (by decide) (by decide)

/-! ## Properties of `mapOption`, `allPairs` and `solution18b` -/

theorem mapOption_mem_out {α β : Type} {f : α → Option β} :
    ∀ {L : List α} {out : List β}, mapOption f L = some out →
    ∀ b ∈ out, ∃ a ∈ L, f a = some b := by
  intro L
  induction L with
  | nil =>
    intro out h b hb
    simp only [mapOption, Option.some.injEq] at h
    subst h
    simp at hb
  | cons a L ih =>
    intro out h b hb
    simp only [mapOption] at h
    cases hfa : f a with
    | none => rw [hfa] at h; simp at h
    | some b2 =>
      rw [hfa] at h
      cases hrec : mapOption f L with
      | none => rw [hrec] at h; simp at h
      | some out2 =>
        rw [hrec] at h
        simp only [Option.some.injEq] at h
        subst h
        rcases List.mem_cons.1 hb with hb | hb
        · exact ⟨a, List.mem_cons_self _ _, by rw [hfa, hb]⟩
        · obtain ⟨a2, ha2, hfa2⟩ := ih hrec b hb
          exact ⟨a2, List.mem_cons_of_mem _ ha2, hfa2⟩

theorem mapOption_mem_in {α β : Type} {f : α → Option β} :
    ∀ {L : List α} {out : List β}, mapOption f L = some out →
    ∀ a ∈ L, ∃ b ∈ out, f a = some b := by
  intro L
  induction L with
  | nil =>
    intro out h a ha
    simp at ha
  | cons a0 L ih =>
    intro out h a ha
    simp only [mapOption] at h
    cases hfa : f a0 with
    | none => rw [hfa] at h; simp at h
    | some b2 =>
      rw [hfa] at h
      cases hrec : mapOption f L with
      | none => rw [hrec] at h; simp at h
      | some out2 =>
        rw [hrec] at h
        simp only [Option.some.injEq] at h
        subst h
        rcases List.mem_cons.1 ha with ha | ha
        · exact ⟨b2, List.mem_cons_self _ _, by rw [ha, hfa]⟩
        · obtain ⟨b3, hb3, hfb3⟩ := ih hrec a ha
          exact ⟨b3, List.mem_cons_of_mem _ hb3, hfb3⟩

theorem nat_max?_eq_some_iff {a : Nat} {xs : List Nat} :
    xs.max? = some a ↔ a ∈ xs ∧ ∀ b ∈ xs, b ≤ a :=
  List.max?_eq_some_iff (fun x => le_refl x) (fun x y => max_choice x y)
    (fun _ _ _ => max_le_iff)

theorem allPairs_pair (a b : SnailfishNumber) :
    allPairs [a, b] = [(a, b), (b, a)] := by
  simp [allPairs, List.enum, List.enumFrom, List.filter]

theorem allPairs_mem_of_positions (input : List SnailfishNumber)
    (i j : Fin input.length) (hne : i.1 ≠ j.1) :
    (input.get i, input.get j) ∈ allPairs input := by
  simp only [allPairs, List.mem_flatMap, List.mem_map, List.mem_filter]
  refine ⟨(i.1, input.get i), ?_, ⟨(j.1, input.get j), ⟨?_, ?_⟩, rfl⟩⟩
  · rw [List.mk_mem_enum_iff_getElem?]
    simp [List.getElem?_eq_getElem i.2]
  · rw [List.mk_mem_enum_iff_getElem?]
    simp [List.getElem?_eq_getElem j.2]
  · simpa using fun hh => hne hh.symm

theorem allPairs_positions_of_mem (input : List SnailfishNumber)
    (x : SnailfishNumber × SnailfishNumber) (hx : x ∈ allPairs input) :
    ∃ i j : Fin input.length, i.1 ≠ j.1 ∧
      x = (input.get i, input.get j) := by
  simp only [allPairs, List.mem_flatMap, List.mem_map, List.mem_filter] at hx
  obtain ⟨p, hp, q, ⟨hq, hne⟩, hx⟩ := hx
  rw [List.mem_enum_iff_getElem?] at hp hq
  obtain ⟨hip, hgp⟩ := List.getElem?_eq_some_iff.1 hp
  obtain ⟨hiq, hgq⟩ := List.getElem?_eq_some_iff.1 hq
  have hne2 : q.1 ≠ p.1 := by simpa using hne
  refine ⟨⟨p.1, hip⟩, ⟨q.1, hiq⟩, ?_, ?_⟩
  · exact fun hh => hne2 hh.symm
  · rw [← hx]
    simp [List.get_eq_getElem, hgp, hgq]

/-- C9: `solution18b` evaluates `add_numbers(a, b).magnitude()` for
every ordered pair of distinct positions of the input collection — both
orders, with equal values at different positions both qualifying and
only identical-position self-pairing excluded — and returns the maximum
such magnitude; a 2-element collection yields exactly the 2 candidates
`(a, b)` and `(b, a)`, and collections with fewer than two elements
fail. -/
theorem c9_solution18b_spec :
    (∀ (input : List SnailfishNumber) (i j : Fin input.length),
      i.1 ≠ j.1 → (input.get i, input.get j) ∈ allPairs input) ∧
    (∀ (input : List SnailfishNumber)
      (x : SnailfishNumber × SnailfishNumber), x ∈ allPairs input →
      ∃ i j : Fin input.length, i.1 ≠ j.1 ∧
        x = (input.get i, input.get j)) ∧
    (∀ fuel : Nat, solution18b fuel [] = none) ∧
    (∀ (fuel : Nat) (x : SnailfishNumber), solution18b fuel [x] = none) ∧
    (∀ (fuel : Nat) (a b : SnailfishNumber),
      allPairs [a, b] = [(a, b), (b, a)]) ∧
    (∀ (fuel : Nat) (a b r1 r2 : SnailfishNumber),
      add_numbers fuel a b = some r1 → add_numbers fuel b a = some r2 →
      solution18b fuel [a, b] =
        some (max r1.magnitude r2.magnitude)) ∧
    (∀ (fuel : Nat) (input : List SnailfishNumber) (m : Nat),
      solution18b fuel input = some m →
      (∃ p ∈ allPairs input,
        (add_numbers fuel p.1 p.2).map SnailfishNumber.magnitude = some m) ∧
      (∀ p ∈ allPairs input, ∃ v,
        (add_numbers fuel p.1 p.2).map SnailfishNumber.magnitude = some v ∧
          v ≤ m)) := by
  refine ⟨allPairs_mem_of_positions, allPairs_positions_of_mem,
    fun fuel => rfl, fun fuel x => ?_, fun fuel a b => allPairs_pair a b,
    ?_, ?_⟩
  · show solution18b fuel [x] = none
    have h1 : allPairs [x] = [] := by
      simp [allPairs, List.enum, List.enumFrom, List.filter]
    simp [solution18b, h1, mapOption]
  · intro fuel a b r1 r2 h1 h2
    simp only [solution18b, allPairs_pair, mapOption, h1, h2, Option.map_some']
    simp [List.max?]
  · intro fuel input m h
    simp only [solution18b] at h
    cases hmo : mapOption
        (fun p => (add_numbers fuel p.1 p.2).map SnailfishNumber.magnitude)
        (allPairs input) with
    | none => rw [hmo] at h; simp at h
    | some mags =>
      rw [hmo] at h
      obtain ⟨hmem, hmax⟩ := nat_max?_eq_some_iff.1 h
      constructor
      · exact mapOption_mem_out hmo m hmem
      · intro p hp
        obtain ⟨v, hv, hfv⟩ := mapOption_mem_in hmo p hp
        exact ⟨v, hfv, hmax v hv⟩

/-- C9 witness: the two-candidate computation on `[[1,2], [3,4]]`. -/
theorem c9_solution18b_spec_witness :
    solution18b 1 [⟨.Value 1, .Value 2⟩, ⟨.Value 3, .Value 4⟩] =
      some (max 55 65) :=
  c9_solution18b_spec.2.2.2.2.2.1 1 ⟨.Value 1, .Value 2⟩
    ⟨.Value 3, .Value 4⟩
    ⟨.Pair (.Value 1) (.Value 2), .Pair (.Value 3) (.Value 4)⟩
    ⟨.Pair (.Value 3) (.Value 4), .Pair (.Value 1) (.Value 2)⟩
    (by decide) (by decide)

/-- C10: the parser performs no bracket validation — it strips the first
and last characters unconditionally — so the grammar-violating input
`(1,2)` is accepted and parsed to the pair of 1 and 2. -/
theorem c10_parser_no_bracket_check :
    parse_snailfish_number 1 ['(', '1', ',', '2', ')'] =
      some ⟨.Value 1, .Value 2⟩ ∧
    ['(', '1', ',', '2', ')'].head? ≠ some '[' ∧
    ['(', '1', ',', '2', ')'].getLast? ≠ some ']' := by
  refine ⟨by decide, by decide, by decide⟩

end Snailfish
